import Mathlib

/-!
# Verification of the AETHER-QKD simulator

A shallow embedding of the core of the AETHER/TEAL QKD simulator
(`locking/core.py`, `physics/evolution.py`, `controller/immune_system.py`,
`protocols/aether_v3.py`, `components/*.py`, `analysis/*.py`) together with
theorems settling the frozen claims about it.

Conventions used throughout:
* Basis indices of an `n`-qubit register are natural numbers `< 2^n`; the bit
  belonging to qubit `q` is the big-endian bit `i / 2^(n-1-q) % 2`, matching
  the Python code's `f'{i:0{n}b}'` bit strings.
* Amplitudes are taken in a commutative ring `K` together with a predicate
  `keep : K → Bool` modelling the code's negligibility test
  `abs(amplitude) > 1e-9` (floating-point amplitudes are modelled exactly).
* Randomness is determinized: a Python `random.Random` instance is modelled
  as an oracle of draw values plus a position counter, each method call
  consuming one tick, so that a run is an explicit function of its seed's
  oracle.
-/

namespace AetherQKD

/-! ## Big-endian bit indexing of basis states -/

/-- The bit of basis index `i` belonging to qubit `q` of an `n`-qubit
register, big-endian as in the Python `f'{i:0{n}b}'` representation. -/
def bitAt (n i q : ℕ) : ℕ := i / 2 ^ (n - 1 - q) % 2

theorem bitAt_le_one (n i q : ℕ) : bitAt n i q ≤ 1 := by
  have := Nat.mod_lt (i / 2 ^ (n - 1 - q)) (show 0 < 2 by norm_num)
  unfold bitAt; omega

/-- Little-endian reading: bit `k` of a sum `∑ g p * 2^p` of binary digits. -/
theorem sum_pow_div_mod (g : ℕ → ℕ) (hg : ∀ p, g p ≤ 1) :
    ∀ n k, k < n → (∑ p ∈ Finset.range n, g p * 2 ^ p) / 2 ^ k % 2 = g k := by
  intro n
  induction n generalizing g with
  | zero => omega
  | succ m ih =>
    intro k hk
    have hsplit : (∑ p ∈ Finset.range (m + 1), g p * 2 ^ p)
        = g 0 + 2 * ∑ p ∈ Finset.range m, g (p + 1) * 2 ^ p := by
      rw [Finset.sum_range_succ']
      rw [Finset.sum_congr rfl (fun p (_ : p ∈ Finset.range m) =>
        show g (p + 1) * 2 ^ (p + 1) = 2 * (g (p + 1) * 2 ^ p) by ring)]
      rw [← Finset.mul_sum]
      ring
    rw [hsplit]
    cases k with
    | zero =>
      simp only [pow_zero, Nat.div_one]
      rw [Nat.add_mul_mod_self_left]
      exact Nat.mod_eq_of_lt (by have := hg 0; omega)
    | succ k' =>
      have h2 : (2 : ℕ) ^ (k' + 1) = 2 * 2 ^ k' := by ring
      rw [h2, ← Nat.div_div_eq_div_mul]
      have hdiv : (g 0 + 2 * ∑ p ∈ Finset.range m, g (p + 1) * 2 ^ p) / 2
          = ∑ p ∈ Finset.range m, g (p + 1) * 2 ^ p := by
        rw [Nat.add_mul_div_left _ _ (show 0 < 2 by norm_num)]
        have := hg 0; interval_cases h : g 0 <;> simp
      rw [hdiv]
      exact ih (fun p => g (p + 1)) (fun p => hg (p + 1)) k' (by omega)

/-- A sum of binary digits weighted by powers of two is below `2^n`. -/
theorem sum_pow_lt (g : ℕ → ℕ) (hg : ∀ p, g p ≤ 1) :
    ∀ n, (∑ p ∈ Finset.range n, g p * 2 ^ p) < 2 ^ n := by
  intro n
  induction n generalizing g with
  | zero => simp
  | succ m ih =>
    have hsplit : (∑ p ∈ Finset.range (m + 1), g p * 2 ^ p)
        = g 0 + 2 * ∑ p ∈ Finset.range m, g (p + 1) * 2 ^ p := by
      rw [Finset.sum_range_succ']
      rw [Finset.sum_congr rfl (fun p (_ : p ∈ Finset.range m) =>
        show g (p + 1) * 2 ^ (p + 1) = 2 * (g (p + 1) * 2 ^ p) by ring)]
      rw [← Finset.mul_sum]
      ring
    rw [hsplit]
    have h1 : (∑ p ∈ Finset.range m, g (p + 1) * 2 ^ p) < 2 ^ m :=
      ih _ (fun p => hg (p + 1))
    have h0 := hg 0
    have h2 : (2 : ℕ) ^ (m + 1) = 2 * 2 ^ m := by ring
    omega

/-- Reassembling a number below `2^n` from its little-endian digits. -/
theorem sum_pow_digits (n : ℕ) : ∀ i, i < 2 ^ n →
    (∑ p ∈ Finset.range n, (i / 2 ^ p % 2) * 2 ^ p) = i := by
  induction n with
  | zero => intro i hi; interval_cases i; simp
  | succ m ih =>
    intro i hi
    rw [Finset.sum_range_succ']
    have hterm : ∀ p, (i / 2 ^ (p + 1) % 2) * 2 ^ (p + 1)
        = ((i / 2 / 2 ^ p % 2) * 2 ^ p) * 2 := by
      intro p
      rw [pow_succ', ← Nat.div_div_eq_div_mul]
      ring
    rw [Finset.sum_congr rfl (fun p _ => hterm p), ← Finset.sum_mul]
    have hi2 : i / 2 < 2 ^ m := by
      have h2 : (2 : ℕ) ^ (m + 1) = 2 ^ m * 2 := by ring
      rw [h2] at hi
      exact Nat.div_lt_of_lt_mul (by omega)
    rw [ih (i / 2) hi2]
    simp only [pow_zero, Nat.div_one, mul_one]
    omega

/-- Assemble a basis index from big-endian bits `f 0, …, f (n-1)`. -/
def assemble (n : ℕ) (f : ℕ → ℕ) : ℕ :=
  ∑ p ∈ Finset.range n, f (n - 1 - p) * 2 ^ p

theorem assemble_lt (n : ℕ) (f : ℕ → ℕ) (hf : ∀ q, f q ≤ 1) :
    assemble n f < 2 ^ n :=
  sum_pow_lt (fun p => f (n - 1 - p)) (fun p => hf (n - 1 - p)) n

theorem bitAt_assemble (n : ℕ) (f : ℕ → ℕ) (hf : ∀ q, f q ≤ 1)
    (q : ℕ) (hq : q < n) : bitAt n (assemble n f) q = f q := by
  unfold bitAt assemble
  rw [sum_pow_div_mod (fun p => f (n - 1 - p)) (fun p => hf (n - 1 - p))
      n (n - 1 - q) (by omega)]
  congr 1
  omega

theorem assemble_bitAt (n i : ℕ) (hi : i < 2 ^ n) :
    assemble n (bitAt n i) = i := by
  unfold assemble bitAt
  have hcongr : ∀ p ∈ Finset.range n,
      (i / 2 ^ (n - 1 - (n - 1 - p)) % 2) * 2 ^ p = (i / 2 ^ p % 2) * 2 ^ p := by
    intro p hp
    rw [Finset.mem_range] at hp
    have hpp : n - 1 - (n - 1 - p) = p := by omega
    rw [hpp]
  rw [Finset.sum_congr rfl hcongr]
  exact sum_pow_digits n i hi

theorem eq_of_bitAt_eq (n i j : ℕ) (hi : i < 2 ^ n) (hj : j < 2 ^ n)
    (h : ∀ q, q < n → bitAt n i q = bitAt n j q) : i = j := by
  rw [← assemble_bitAt n i hi, ← assemble_bitAt n j hj]
  unfold assemble
  exact Finset.sum_congr rfl (fun p hp => by
    rw [Finset.mem_range] at hp
    rw [h (n - 1 - p) (by omega)])

/-! ## Wire transpositions acting on basis indices -/

/-- The transposition of wire indices `a` and `b`. -/
def wireSwap (a b q : ℕ) : ℕ := if q = a then b else if q = b then a else q

theorem wireSwap_lt (a b q n : ℕ) (ha : a < n) (hb : b < n) (hq : q < n) :
    wireSwap a b q < n := by
  unfold wireSwap; split_ifs <;> assumption

theorem wireSwap_wireSwap (a b q : ℕ) : wireSwap a b (wireSwap a b q) = q := by
  unfold wireSwap; split_ifs <;> omega

theorem wireSwap_comm (a b q : ℕ) : wireSwap a b q = wireSwap b a q := by
  unfold wireSwap; split_ifs <;> omega

theorem wireSwap_of_ne (a b q : ℕ) (hqa : q ≠ a) (hqb : q ≠ b) :
    wireSwap a b q = q := by
  unfold wireSwap; split_ifs <;> omega

theorem wireSwap_left (a b : ℕ) : wireSwap a b a = b := by
  unfold wireSwap; simp

theorem wireSwap_right (a b : ℕ) : wireSwap a b b = a := by
  unfold wireSwap; split_ifs <;> omega

/-- The permutation of `n`-qubit basis indices that exchanges the bits of
wires `a` and `b`. -/
def swapIdx (n a b i : ℕ) : ℕ := assemble n (fun q => bitAt n i (wireSwap a b q))

theorem swapIdx_lt (n a b i : ℕ) : swapIdx n a b i < 2 ^ n :=
  assemble_lt n _ (fun q => bitAt_le_one n i _)

theorem bitAt_swapIdx (n a b i q : ℕ) (hq : q < n) :
    bitAt n (swapIdx n a b i) q = bitAt n i (wireSwap a b q) :=
  bitAt_assemble n _ (fun q => bitAt_le_one n i _) q hq

theorem swapIdx_swapIdx (n a b i : ℕ) (ha : a < n) (hb : b < n)
    (hi : i < 2 ^ n) : swapIdx n a b (swapIdx n a b i) = i := by
  apply eq_of_bitAt_eq n _ i (swapIdx_lt n a b _) hi
  intro q hq
  rw [bitAt_swapIdx n a b _ q hq,
      bitAt_swapIdx n a b i _ (wireSwap_lt a b q n ha hb hq),
      wireSwap_wireSwap]

/-! ## Local two-qubit gate primitives (`physics/evolution.py`, Section 1)

Amplitudes live in a commutative ring `K`; `keep : K → Bool` models the
negligibility test `abs(amplitude) > 1e-9` of `_gate_on_n`. -/

variable {K : Type} [CommRing K]

/-- The `SWAP_2` matrix of `physics/evolution.py`. -/
def SWAP2 : Matrix (Fin 4) (Fin 4) K :=
  !![1, 0, 0, 0; 0, 0, 1, 0; 0, 1, 0, 0; 0, 0, 0, 1]

/-- The `CNOT_2` matrix of `physics/evolution.py`. -/
def CNOT2 : Matrix (Fin 4) (Fin 4) K :=
  !![1, 0, 0, 0; 0, 1, 0, 0; 0, 0, 0, 1; 0, 0, 1, 0]

/-- `np.kron` of two one-qubit operators (row-major Kronecker product). -/
def kron22 (A B : Matrix (Fin 2) (Fin 2) K) : Matrix (Fin 4) (Fin 4) K :=
  fun j i =>
    A ⟨j.val / 2, by have := j.isLt; omega⟩ ⟨i.val / 2, by have := i.isLt; omega⟩ *
    B ⟨j.val % 2, by omega⟩ ⟨i.val % 2, by omega⟩

/-- `local_pair_gate_from_rotations`: the rotations-then-CNOT primitive. -/
def local_pair_gate_from_rotations (Rc Rt : Matrix (Fin 2) (Fin 2) K) :
    Matrix (Fin 4) (Fin 4) K :=
  CNOT2 * kron22 Rc Rt

/-- The amplitude filter of `_gate_on_n`: amplitudes failing the
negligibility test `abs(amplitude) > 1e-9` are never written, i.e. become
`0` in the embedded matrix. -/
def truncate (keep : K → Bool) (g : Matrix (Fin 4) (Fin 4) K) :
    Matrix (Fin 4) (Fin 4) K :=
  fun j i => if keep (g j i) then g j i else 0

/-- The local (2-bit, big-endian) sub-index of basis index `i` carried by the
target wires `t₁, t₂`, as computed by `_gate_on_n`'s `local_idx`. -/
def localIdx (n : ℕ) (i : Fin (2 ^ n)) (t₁ t₂ : ℕ) : Fin 4 :=
  ⟨2 * bitAt n i.val t₁ + bitAt n i.val t₂, by
    have h1 := bitAt_le_one n i.val t₁
    have h2 := bitAt_le_one n i.val t₂
    omega⟩

/-- The basis-sum embedding of a local `4×4` operator onto wires `t₁, t₂`
(assumed listed in ascending order) of an `n`-qubit register: entry `(j, i)`
is the local matrix entry when all non-target bits of `j` and `i` agree, and
`0` otherwise.  This is `_gate_on_n`'s main loop for `k = 2`. -/
def embedPair (n : ℕ) (g : Matrix (Fin 4) (Fin 4) K) (t₁ t₂ : ℕ) :
    Matrix (Fin (2 ^ n)) (Fin (2 ^ n)) K :=
  fun j i =>
    if ∀ q ∈ Finset.range n, q ≠ t₁ → q ≠ t₂ →
        bitAt n j.val q = bitAt n i.val q
    then g (localIdx n j t₁ t₂) (localIdx n i t₁ t₂) else 0

/-- `_gate_on_n` for a two-qubit gate with target list `[t₁, t₂]`: if the
targets are not ascending, the local gate is first conjugated by the bit
permutation (`SWAP_2`) and embedded on the sorted targets. -/
def gateOnN2 (n : ℕ) (keep : K → Bool) (g : Matrix (Fin 4) (Fin 4) K)
    (t₁ t₂ : ℕ) : Matrix (Fin (2 ^ n)) (Fin (2 ^ n)) K :=
  if t₂ < t₁ then embedPair n (truncate keep (SWAP2 * g * SWAP2)) t₂ t₁
  else embedPair n (truncate keep g) t₁ t₂

/-! ## Compiled circuits (`locking/core.py`) -/

/-- A compiled gate: `('SWAP', a, b)` or `('G', c, t, Rc, Rt)`. -/
inductive CompiledGate (K : Type) where
  | swap (a b : ℕ)
  | gate (c t : ℕ) (Rc Rt : Matrix (Fin 2) (Fin 2) K)

/-- An abstract gate `('G', control, target, Rc, Rt)`. -/
structure AbstractGate (K : Type) where
  control : ℕ
  target : ℕ
  Rc : Matrix (Fin 2) (Fin 2) K
  Rt : Matrix (Fin 2) (Fin 2) K

/-- `list(range(c, t, 1 if c < t else -1))` from `compile_circuit`. -/
def pathList (c t : ℕ) : List ℕ :=
  if c < t then List.range' c (t - c) else (List.range' (t + 1) (c - t)).reverse

/-- `swaps = list(zip(path, path[1:]))` from `compile_circuit`. -/
def swapsOf (path : List ℕ) : List (CompiledGate K) :=
  (path.zip path.tail).map fun p => CompiledGate.swap p.1 p.2

/-- The compiled segment `compile_circuit` emits for one abstract gate:
adjacent gates pass through; otherwise a SWAP chain along the path, the
entangling gate at the final adjacent position, and the mirrored SWAP chain. -/
def compileGate (g : AbstractGate K) : List (CompiledGate K) :=
  if Nat.dist g.control g.target = 1 then
    [CompiledGate.gate g.control g.target g.Rc g.Rt]
  else
    swapsOf (pathList g.control g.target)
      ++ [CompiledGate.gate ((pathList g.control g.target).getLastD g.control)
            g.target g.Rc g.Rt]
      ++ ((pathList g.control g.target).zip
            (pathList g.control g.target).tail).reverse.map
          (fun p => CompiledGate.swap p.1 p.2)

/-- `compile_circuit` from `locking/core.py` (the `n_qubits` argument is
unused there as well). -/
def compile_circuit (n_qubits : ℕ) (gate_list : List (AbstractGate K)) :
    List (CompiledGate K) :=
  (gate_list.map compileGate).flatten

/-! ## The ideal unitary of a compiled circuit
(`build_unitary_from_compiled`, `physics/evolution.py`) -/

/-- The full embedded matrix of one compiled gate: the local primitive is
embedded by `_gate_on_n` at the sorted target pair. -/
def gateMatrix (n : ℕ) (keep : K → Bool) :
    CompiledGate K → Matrix (Fin (2 ^ n)) (Fin (2 ^ n)) K
  | CompiledGate.swap a b => gateOnN2 n keep SWAP2 (min a b) (max a b)
  | CompiledGate.gate c t Rc Rt =>
      gateOnN2 n keep (local_pair_gate_from_rotations Rc Rt) (min c t) (max c t)

/-- `build_unitary_from_compiled`: sequential left-composition
`U := U_gate @ U` starting from the identity. -/
def build_unitary_from_compiled (n : ℕ) (keep : K → Bool)
    (compiled_list : List (CompiledGate K)) :
    Matrix (Fin (2 ^ n)) (Fin (2 ^ n)) K :=
  compiled_list.foldl (fun U g => gateMatrix n keep g * U) 1

/-- An abstract gate viewed directly as an (unrouted) entangling gate, for
building the ideal abstract-circuit unitary. -/
def AbstractGate.toCompiled (g : AbstractGate K) : CompiledGate K :=
  CompiledGate.gate g.control g.target g.Rc g.Rt

/-- The permutation matrix on basis indices induced by exchanging the bits of
wires `a` and `b`. -/
def swapMat (n a b : ℕ) : Matrix (Fin (2 ^ n)) (Fin (2 ^ n)) K :=
  fun j i => if j.val = swapIdx n a b i.val then 1 else 0

/-! ## The SWAP embedding is a permutation matrix -/

theorem truncate_SWAP2 (keep : K → Bool) (hk : keep 1 = true) :
    truncate keep (SWAP2 : Matrix (Fin 4) (Fin 4) K) = SWAP2 := by
  ext j i
  unfold truncate
  fin_cases j <;> fin_cases i <;>
    simp [SWAP2, hk, Matrix.vecHead, Matrix.vecTail]

theorem SWAP2_apply (j i : Fin 4) :
    (SWAP2 : Matrix (Fin 4) (Fin 4) K) j i
      = if j.val = 2 * (i.val % 2) + i.val / 2 then 1 else 0 := by
  fin_cases j <;> fin_cases i <;>
    simp [SWAP2, Matrix.vecHead, Matrix.vecTail]

theorem embedPair_SWAP2 (n a b : ℕ) (hab : a < b) (hb : b < n) :
    embedPair n (SWAP2 : Matrix (Fin 4) (Fin 4) K) a b = swapMat n a b := by
  have ha : a < n := lt_trans hab hb
  ext j i
  unfold embedPair swapMat
  by_cases hcond : ∀ q ∈ Finset.range n, q ≠ a → q ≠ b →
      bitAt n j.val q = bitAt n i.val q
  · rw [if_pos hcond, SWAP2_apply]
    have hja := bitAt_le_one n j.val a
    have hjb := bitAt_le_one n j.val b
    have hia := bitAt_le_one n i.val a
    have hib := bitAt_le_one n i.val b
    have hmod : (2 * bitAt n i.val a + bitAt n i.val b) % 2
        = bitAt n i.val b := by omega
    have hdiv : (2 * bitAt n i.val a + bitAt n i.val b) / 2
        = bitAt n i.val a := by omega
    by_cases hj : j.val = swapIdx n a b i.val
    · have hbit : ∀ q, q < n →
          bitAt n j.val q = bitAt n i.val (wireSwap a b q) := by
        intro q hq; rw [hj]; exact bitAt_swapIdx n a b i.val q hq
      have h1 : bitAt n j.val a = bitAt n i.val b := by
        rw [hbit a ha, wireSwap_left]
      have h2 : bitAt n j.val b = bitAt n i.val a := by
        rw [hbit b hb, wireSwap_right]
      have hcl : (localIdx n j a b).val
          = 2 * ((localIdx n i a b).val % 2) + (localIdx n i a b).val / 2 := by
        show (2 * bitAt n j.val a + bitAt n j.val b : ℕ)
            = 2 * ((2 * bitAt n i.val a + bitAt n i.val b) % 2)
              + (2 * bitAt n i.val a + bitAt n i.val b) / 2
        rw [hmod, hdiv]
        omega
      rw [if_pos hj, if_pos hcl]
    · have hcl : ¬ ((localIdx n j a b).val
          = 2 * ((localIdx n i a b).val % 2) + (localIdx n i a b).val / 2) := by
        intro hloc
        apply hj
        replace hloc : (2 * bitAt n j.val a + bitAt n j.val b : ℕ)
            = 2 * ((2 * bitAt n i.val a + bitAt n i.val b) % 2)
              + (2 * bitAt n i.val a + bitAt n i.val b) / 2 := hloc
        rw [hmod, hdiv] at hloc
        have h1 : bitAt n j.val a = bitAt n i.val b := by omega
        have h2 : bitAt n j.val b = bitAt n i.val a := by omega
        apply eq_of_bitAt_eq n j.val (swapIdx n a b i.val) j.isLt
          (swapIdx_lt n a b i.val)
        intro q hq
        rw [bitAt_swapIdx n a b i.val q hq]
        by_cases hqa : q = a
        · subst hqa; rw [wireSwap_left]; exact h1
        by_cases hqb : q = b
        · subst hqb; rw [wireSwap_right]; exact h2
        rw [wireSwap_of_ne a b q hqa hqb]
        exact hcond q (Finset.mem_range.mpr hq) hqa hqb
      rw [if_neg hj, if_neg hcl]
  · rw [if_neg hcond, if_neg]
    intro hj
    apply hcond
    intro q hq hqa hqb
    rw [Finset.mem_range] at hq
    rw [hj, bitAt_swapIdx n a b i.val q hq, wireSwap_of_ne a b q hqa hqb]

/-! ## Conjugation by a SWAP permutation relocates an embedded gate -/

theorem swapMat_mul_apply (n a b : ℕ) (ha : a < n) (hb : b < n)
    (M : Matrix (Fin (2 ^ n)) (Fin (2 ^ n)) K) (j i : Fin (2 ^ n)) :
    ((swapMat n a b : Matrix (Fin (2 ^ n)) (Fin (2 ^ n)) K) * M) j i
      = M ⟨swapIdx n a b j.val, swapIdx_lt n a b j.val⟩ i := by
  rw [Matrix.mul_apply]
  have key : ∀ k : Fin (2 ^ n), (j.val = swapIdx n a b k.val)
      ↔ (k = ⟨swapIdx n a b j.val, swapIdx_lt n a b j.val⟩) := by
    intro k
    constructor
    · intro h
      apply Fin.ext
      show k.val = swapIdx n a b j.val
      rw [h, swapIdx_swapIdx n a b k.val ha hb k.isLt]
    · intro h
      subst h
      exact (swapIdx_swapIdx n a b j.val ha hb j.isLt).symm
  calc ∑ k, swapMat n a b j k * M k i
      = ∑ k, if k = ⟨swapIdx n a b j.val, swapIdx_lt n a b j.val⟩
          then M k i else 0 := by
        refine Finset.sum_congr rfl (fun k _ => ?_)
        unfold swapMat
        rw [if_congr (key k) rfl rfl, ite_mul, one_mul, zero_mul]
    _ = _ := by rw [Finset.sum_ite_eq' Finset.univ _ (fun k => M k i)]; simp

theorem mul_swapMat_apply (n a b : ℕ)
    (M : Matrix (Fin (2 ^ n)) (Fin (2 ^ n)) K) (j i : Fin (2 ^ n)) :
    (M * (swapMat n a b : Matrix (Fin (2 ^ n)) (Fin (2 ^ n)) K)) j i
      = M j ⟨swapIdx n a b i.val, swapIdx_lt n a b i.val⟩ := by
  rw [Matrix.mul_apply]
  have key : ∀ k : Fin (2 ^ n), (k.val = swapIdx n a b i.val)
      ↔ (k = ⟨swapIdx n a b i.val, swapIdx_lt n a b i.val⟩) := by
    intro k; rw [Fin.ext_iff]
  calc ∑ k, M j k * swapMat n a b k i
      = ∑ k, if k = ⟨swapIdx n a b i.val, swapIdx_lt n a b i.val⟩
          then M j k else 0 := by
        refine Finset.sum_congr rfl (fun k _ => ?_)
        unfold swapMat
        rw [if_congr (key k) rfl rfl, mul_ite, mul_one, mul_zero]
    _ = _ := by rw [Finset.sum_ite_eq' Finset.univ _ (fun k => M j k)]; simp

theorem swapMat_conj (n a b t₁ t₂ : ℕ) (ha : a < n) (hb : b < n)
    (ht₁ : t₁ < n) (ht₂ : t₂ < n) (g : Matrix (Fin 4) (Fin 4) K) :
    swapMat n a b * embedPair n g t₁ t₂ * swapMat n a b
      = embedPair n g (wireSwap a b t₁) (wireSwap a b t₂) := by
  ext j i
  rw [mul_swapMat_apply, swapMat_mul_apply n a b ha hb]
  unfold embedPair
  have hbj : ∀ q, q < n → bitAt n (swapIdx n a b j.val) q
      = bitAt n j.val (wireSwap a b q) := fun q hq =>
    bitAt_swapIdx n a b j.val q hq
  have hbi : ∀ q, q < n → bitAt n (swapIdx n a b i.val) q
      = bitAt n i.val (wireSwap a b q) := fun q hq =>
    bitAt_swapIdx n a b i.val q hq
  have hiff : (∀ q ∈ Finset.range n, q ≠ t₁ → q ≠ t₂ →
      bitAt n (swapIdx n a b j.val) q = bitAt n (swapIdx n a b i.val) q)
      ↔ (∀ q ∈ Finset.range n, q ≠ wireSwap a b t₁ → q ≠ wireSwap a b t₂ →
      bitAt n j.val q = bitAt n i.val q) := by
    constructor
    · intro h q hq hq₁ hq₂
      rw [Finset.mem_range] at hq
      have h₁ : wireSwap a b q ≠ t₁ := by
        intro hc
        apply hq₁
        rw [← hc, wireSwap_wireSwap]
      have h₂ : wireSwap a b q ≠ t₂ := by
        intro hc
        apply hq₂
        rw [← hc, wireSwap_wireSwap]
      have := h (wireSwap a b q)
        (Finset.mem_range.mpr (wireSwap_lt a b q n ha hb hq)) h₁ h₂
      rwa [hbj _ (wireSwap_lt a b q n ha hb hq),
           hbi _ (wireSwap_lt a b q n ha hb hq), wireSwap_wireSwap] at this
    · intro h q hq hq₁ hq₂
      rw [Finset.mem_range] at hq
      rw [hbj q hq, hbi q hq]
      have h₁ : wireSwap a b q ≠ wireSwap a b t₁ := by
        intro hc
        apply hq₁
        rw [← wireSwap_wireSwap a b q, hc, wireSwap_wireSwap]
      have h₂ : wireSwap a b q ≠ wireSwap a b t₂ := by
        intro hc
        apply hq₂
        rw [← wireSwap_wireSwap a b q, hc, wireSwap_wireSwap]
      exact h (wireSwap a b q)
        (Finset.mem_range.mpr (wireSwap_lt a b q n ha hb hq)) h₁ h₂
  have hlocj : localIdx n ⟨swapIdx n a b j.val, swapIdx_lt n a b j.val⟩ t₁ t₂
      = localIdx n j (wireSwap a b t₁) (wireSwap a b t₂) := by
    apply Fin.ext
    show 2 * bitAt n (swapIdx n a b j.val) t₁ + bitAt n (swapIdx n a b j.val) t₂
        = 2 * bitAt n j.val (wireSwap a b t₁) + bitAt n j.val (wireSwap a b t₂)
    rw [hbj t₁ ht₁, hbj t₂ ht₂]
  have hloci : localIdx n ⟨swapIdx n a b i.val, swapIdx_lt n a b i.val⟩ t₁ t₂
      = localIdx n i (wireSwap a b t₁) (wireSwap a b t₂) := by
    apply Fin.ext
    show 2 * bitAt n (swapIdx n a b i.val) t₁ + bitAt n (swapIdx n a b i.val) t₂
        = 2 * bitAt n i.val (wireSwap a b t₁) + bitAt n i.val (wireSwap a b t₂)
    rw [hbi t₁ ht₁, hbi t₂ ht₂]
  rw [hlocj, hloci]
  exact if_congr hiff rfl rfl

/-! ## Sequential composition of compiled circuits -/

theorem foldl_gateMatrix (n : ℕ) (keep : K → Bool) (l : List (CompiledGate K))
    (A : Matrix (Fin (2 ^ n)) (Fin (2 ^ n)) K) :
    l.foldl (fun U g => gateMatrix n keep g * U) A
      = build_unitary_from_compiled n keep l * A := by
  induction l generalizing A with
  | nil => simp [build_unitary_from_compiled]
  | cons x l ih =>
    simp only [List.foldl_cons]
    rw [ih]
    have hx : build_unitary_from_compiled n keep (x :: l)
        = build_unitary_from_compiled n keep l * gateMatrix n keep x := by
      unfold build_unitary_from_compiled
      simp only [List.foldl_cons]
      rw [ih, mul_one]
      rfl
    rw [hx, mul_assoc]

theorem buildU_cons (n : ℕ) (keep : K → Bool) (x : CompiledGate K)
    (l : List (CompiledGate K)) :
    build_unitary_from_compiled n keep (x :: l)
      = build_unitary_from_compiled n keep l * gateMatrix n keep x := by
  unfold build_unitary_from_compiled
  simp only [List.foldl_cons]
  rw [foldl_gateMatrix, mul_one]
  rfl

theorem buildU_append (n : ℕ) (keep : K → Bool)
    (l₁ l₂ : List (CompiledGate K)) :
    build_unitary_from_compiled n keep (l₁ ++ l₂)
      = build_unitary_from_compiled n keep l₂
        * build_unitary_from_compiled n keep l₁ := by
  unfold build_unitary_from_compiled
  rw [List.foldl_append, foldl_gateMatrix]
  rfl

theorem buildU_singleton (n : ℕ) (keep : K → Bool) (x : CompiledGate K) :
    build_unitary_from_compiled n keep [x] = gateMatrix n keep x := by
  unfold build_unitary_from_compiled
  simp

/-! ## Structure of the SWAP chains emitted by the router -/

theorem pathList_asc (c t : ℕ) (h : c + 2 ≤ t) :
    pathList c t = c :: pathList (c + 1) t := by
  unfold pathList
  rw [if_pos (by omega : c < t), if_pos (by omega : c + 1 < t)]
  have h1 : t - c = (t - (c + 1)) + 1 := by omega
  rw [h1, List.range'_succ]

theorem pathList_desc (c t : ℕ) (h : t + 2 ≤ c) :
    pathList c t = c :: pathList (c - 1) t := by
  unfold pathList
  rw [if_neg (by omega : ¬ c < t), if_neg (by omega : ¬ c - 1 < t)]
  have h1 : c - t = (c - 1 - t) + 1 := by omega
  rw [h1, List.range'_1_concat]
  have h2 : t + 1 + (c - 1 - t) = c := by omega
  rw [h2]
  simp

theorem swapsOf_cons_cons (a b : ℕ) (l : List ℕ) :
    (swapsOf (a :: b :: l) : List (CompiledGate K))
      = CompiledGate.swap a b :: swapsOf (b :: l) := by
  unfold swapsOf
  simp

theorem swapsOf_singleton (a : ℕ) :
    (swapsOf [a] : List (CompiledGate K)) = [] := by
  unfold swapsOf
  simp

theorem compileGate_adjacent (c t : ℕ) (h : Nat.dist c t = 1)
    (Rc Rt : Matrix (Fin 2) (Fin 2) K) :
    compileGate ⟨c, t, Rc, Rt⟩ = [CompiledGate.gate c t Rc Rt] := by
  unfold compileGate
  simp [h]

theorem compileGate_asc (c t : ℕ) (h : c + 2 ≤ t)
    (Rc Rt : Matrix (Fin 2) (Fin 2) K) :
    compileGate ⟨c, t, Rc, Rt⟩
      = CompiledGate.swap c (c + 1)
        :: (compileGate ⟨c + 1, t, Rc, Rt⟩ ++ [CompiledGate.swap c (c + 1)]) := by
  have hd : ¬ Nat.dist c t = 1 := by unfold Nat.dist; omega
  by_cases h2 : t = c + 2
  · subst h2
    have hd2 : Nat.dist (c + 1) (c + 2) = 1 := by unfold Nat.dist; omega
    have hp : pathList c (c + 2) = [c, c + 1] := by
      rw [pathList_asc c (c + 2) (by omega)]
      unfold pathList
      rw [if_pos (by omega)]
      have he : c + 2 - (c + 1) = 1 := by omega
      rw [he, List.range'_one]
    simp only [compileGate]
    rw [if_neg hd, if_pos hd2, hp]
    simp [swapsOf, List.getLastD_cons, List.getLastD_nil, -List.getLastD_eq_getLast?]
  · have hd2 : ¬ Nat.dist (c + 1) t = 1 := by unfold Nat.dist; omega
    have hp1 : pathList c t = c :: pathList (c + 1) t := pathList_asc c t h
    have hp2 : pathList (c + 1) t = (c + 1) :: pathList (c + 2) t :=
      pathList_asc (c + 1) t (by omega)
    simp only [compileGate]
    rw [if_neg hd, if_neg hd2, hp1, hp2]
    simp [swapsOf, List.getLastD_cons, List.append_assoc, -List.getLastD_eq_getLast?]

theorem compileGate_desc (c t : ℕ) (h : t + 2 ≤ c)
    (Rc Rt : Matrix (Fin 2) (Fin 2) K) :
    compileGate ⟨c, t, Rc, Rt⟩
      = CompiledGate.swap c (c - 1)
        :: (compileGate ⟨c - 1, t, Rc, Rt⟩ ++ [CompiledGate.swap c (c - 1)]) := by
  have hd : ¬ Nat.dist c t = 1 := by unfold Nat.dist; omega
  by_cases h2 : c = t + 2
  · subst h2
    have hd2 : Nat.dist (t + 2 - 1) t = 1 := by unfold Nat.dist; omega
    have hp : pathList (t + 2) t = [t + 2, t + 1] := by
      rw [pathList_desc (t + 2) t (by omega)]
      unfold pathList
      rw [if_neg (by omega)]
      have he : t + 2 - 1 - t = 1 := by omega
      rw [he, List.range'_one]
      simp
    simp only [compileGate]
    rw [if_neg hd, if_pos hd2, hp]
    simp [swapsOf, List.getLastD_cons, List.getLastD_nil, -List.getLastD_eq_getLast?]
  · have hd2 : ¬ Nat.dist (c - 1) t = 1 := by unfold Nat.dist; omega
    have hp1 : pathList c t = c :: pathList (c - 1) t := pathList_desc c t h
    have hp2 : pathList (c - 1) t = (c - 1) :: pathList (c - 2) t := by
      have := pathList_desc (c - 1) t (by omega)
      rwa [show c - 1 - 1 = c - 2 by omega] at this
    simp only [compileGate]
    rw [if_neg hd, if_neg hd2, hp1, hp2]
    simp [swapsOf, List.getLastD_cons, List.append_assoc, -List.getLastD_eq_getLast?]

/-! ## Routing preserves the ideal unitary -/

theorem swapMat_comm (n a b : ℕ) :
    (swapMat n a b : Matrix (Fin (2 ^ n)) (Fin (2 ^ n)) K) = swapMat n b a := by
  ext j i
  unfold swapMat
  have h : swapIdx n a b i.val = swapIdx n b a i.val := by
    unfold swapIdx
    congr 1
    funext q
    rw [wireSwap_comm]
  rw [h]

theorem gateMatrix_swap_eq (n : ℕ) (keep : K → Bool) (hk : keep 1 = true)
    (a b : ℕ) (ha : a < n) (hb : b < n) (hab : a ≠ b) :
    gateMatrix n keep (CompiledGate.swap a b : CompiledGate K)
      = swapMat n a b := by
  show gateOnN2 n keep SWAP2 (min a b) (max a b) = swapMat n a b
  rcases Nat.lt_or_ge a b with h | h
  · rw [min_eq_left (le_of_lt h), max_eq_right (le_of_lt h)]
    unfold gateOnN2
    rw [if_neg (by omega), truncate_SWAP2 keep hk, embedPair_SWAP2 n a b h hb]
  · have h' : b < a := by omega
    rw [min_eq_right (le_of_lt h'), max_eq_left (le_of_lt h')]
    unfold gateOnN2
    rw [if_neg (by omega), truncate_SWAP2 keep hk, embedPair_SWAP2 n b a h' ha]
    exact (swapMat_comm n a b).symm

theorem gateMatrix_gate_eq (n : ℕ) (keep : K → Bool) (c t : ℕ) (h : c ≠ t)
    (Rc Rt : Matrix (Fin 2) (Fin 2) K) :
    gateMatrix n keep (CompiledGate.gate c t Rc Rt)
      = embedPair n (truncate keep (local_pair_gate_from_rotations Rc Rt))
          (min c t) (max c t) := by
  show gateOnN2 n keep _ (min c t) (max c t) = _
  unfold gateOnN2
  rw [if_neg (by omega)]

theorem buildU_compileGate (n : ℕ) (keep : K → Bool) (hk : keep 1 = true) :
    ∀ (d c t : ℕ) (Rc Rt : Matrix (Fin 2) (Fin 2) K),
      Nat.dist c t = d → c < n → t < n → c ≠ t →
      build_unitary_from_compiled n keep (compileGate ⟨c, t, Rc, Rt⟩)
        = gateMatrix n keep (CompiledGate.gate c t Rc Rt) := by
  intro d
  induction d using Nat.strong_induction_on with
  | _ d ih =>
    intro c t Rc Rt hd hc ht hne
    by_cases hone : Nat.dist c t = 1
    · rw [compileGate_adjacent c t hone, buildU_singleton]
    · rcases Nat.lt_or_ge c t with hct | hct
      · have h2 : c + 2 ≤ t := by
          unfold Nat.dist at hone
          omega
        rw [compileGate_asc c t h2 Rc Rt,
            buildU_cons, buildU_append, buildU_singleton]
        have hihd : Nat.dist (c + 1) t = d - 1 := by
          unfold Nat.dist at hd ⊢
          omega
        have hd2 : d ≥ 2 := by
          unfold Nat.dist at hd hone
          omega
        rw [ih (d - 1) (by omega) (c + 1) t Rc Rt hihd (by omega) ht (by omega)]
        rw [gateMatrix_swap_eq n keep hk c (c + 1) (by omega) (by omega) (by omega)]
        rw [gateMatrix_gate_eq n keep (c + 1) t (by omega) Rc Rt,
            gateMatrix_gate_eq n keep c t (by omega) Rc Rt]
        rw [min_eq_left (by omega : c + 1 ≤ t), max_eq_right (by omega : c + 1 ≤ t),
            min_eq_left (by omega : c ≤ t), max_eq_right (by omega : c ≤ t)]
        have hconj := swapMat_conj n c (c + 1) (c + 1) t (by omega) (by omega)
          (by omega) ht (truncate keep (local_pair_gate_from_rotations Rc Rt))
        rw [wireSwap_right, wireSwap_of_ne c (c + 1) t (by omega) (by omega)]
          at hconj
        exact hconj
      · have hct' : t < c := by omega
        have h2 : t + 2 ≤ c := by
          unfold Nat.dist at hone
          omega
        rw [compileGate_desc c t h2 Rc Rt,
            buildU_cons, buildU_append, buildU_singleton]
        have hihd : Nat.dist (c - 1) t = d - 1 := by
          unfold Nat.dist at hd ⊢
          omega
        have hd2 : d ≥ 2 := by
          unfold Nat.dist at hd hone
          omega
        rw [ih (d - 1) (by omega) (c - 1) t Rc Rt hihd (by omega) ht (by omega)]
        rw [gateMatrix_swap_eq n keep hk c (c - 1) (by omega) (by omega) (by omega)]
        rw [gateMatrix_gate_eq n keep (c - 1) t (by omega) Rc Rt,
            gateMatrix_gate_eq n keep c t (by omega) Rc Rt]
        rw [min_eq_right (by omega : t ≤ c - 1), max_eq_left (by omega : t ≤ c - 1),
            min_eq_right (by omega : t ≤ c), max_eq_left (by omega : t ≤ c)]
        rw [swapMat_comm n c (c - 1)]
        have hconj := swapMat_conj n (c - 1) c t (c - 1) (by omega) hc ht (by omega)
          (truncate keep (local_pair_gate_from_rotations Rc Rt))
        rw [wireSwap_left, wireSwap_of_ne (c - 1) c t (by omega) (by omega)]
          at hconj
        exact hconj

/-- **C1.** For every abstract gate list in which each gate acts on two
distinct qubit indices below `n`, the routed circuit produced by
`compile_circuit` is semantically equivalent to the abstract circuit under
exact noiseless evolution: the ideal unitary built by
`build_unitary_from_compiled` from the compiled sequence (SWAP chain in,
entangling gate at the adjacent position, mirrored SWAP chain out) equals
the product of the abstract gates embedded directly at their target
positions.  The only property required of the amplitude-negligibility
filter is that the amplitude `1` (the SWAP-matrix entries) is kept, as
`abs(1) > 1e-9` guarantees in the code. -/
theorem C1_compile_circuit_semantic_equivalence (n : ℕ) (keep : K → Bool)
    (hk : keep 1 = true) (gl : List (AbstractGate K))
    (hg : ∀ g ∈ gl, g.control < n ∧ g.target < n ∧ g.control ≠ g.target) :
    build_unitary_from_compiled n keep (compile_circuit n gl)
      = build_unitary_from_compiled n keep (gl.map AbstractGate.toCompiled) := by
  induction gl with
  | nil => rfl
  | cons g gl ih =>
    have hcc : compile_circuit n (g :: gl) = compileGate g ++ compile_circuit n gl := by
      unfold compile_circuit
      simp
    rw [hcc, buildU_append, List.map_cons, buildU_cons]
    obtain ⟨hc, ht, hne⟩ := hg g (List.mem_cons_self g gl)
    rw [ih (fun g' hgm => hg g' (List.mem_cons_of_mem _ hgm))]
    rcases g with ⟨c, t, Rc, Rt⟩
    rw [buildU_compileGate n keep hk (Nat.dist c t) c t Rc Rt rfl hc ht hne]
    rfl

/-- Witness for C1: a concrete 3-qubit circuit with one long-range gate
(control 2, target 0) over rational amplitudes, with the negligibility
filter `abs(x) > 1e-9`. -/
theorem C1_witness :
    ((fun x : ℚ => decide (1 / 10 ^ 9 < |x|)) 1 = true)
    ∧ ((∀ g ∈ [(⟨2, 0, 1, 1⟩ : AbstractGate ℚ)],
          g.control < 3 ∧ g.target < 3 ∧ g.control ≠ g.target))
    ∧ build_unitary_from_compiled 3 (fun x : ℚ => decide (1 / 10 ^ 9 < |x|))
        (compile_circuit 3 [(⟨2, 0, 1, 1⟩ : AbstractGate ℚ)])
      = build_unitary_from_compiled 3 (fun x : ℚ => decide (1 / 10 ^ 9 < |x|))
        ([(⟨2, 0, 1, 1⟩ : AbstractGate ℚ)].map AbstractGate.toCompiled) := by
  refine ⟨by simp only [decide_eq_true_eq]; norm_num, ?_, ?_⟩
  · intro g hgm
    rw [List.mem_singleton] at hgm
    subst hgm
    exact ⟨by decide, by decide, by decide⟩
  · exact C1_compile_circuit_semantic_equivalence 3 _
      (by simp only [decide_eq_true_eq]; norm_num) _
      (by
        intro g hgm
        rw [List.mem_singleton] at hgm
        subst hgm
        exact ⟨by decide, by decide, by decide⟩)

/-! ## Determinized randomness

A Python `random.Random` instance is modelled as an oracle of draw values
together with a position counter; every method call consumes one tick.  The
values a real generator may return are captured by `RandomOracle.Valid`. -/

/-- The oracle behind one `random.Random` instance. -/
structure RandomOracle where
  randomVal : ℕ → ℝ
  randintVal : ℕ → ℕ → ℕ → ℕ
  normalVal : ℕ → ℝ → ℝ → ℝ
  choiceIdx : ℕ → ℕ → ℕ

/-- A `random.Random` generator: its oracle and current stream position. -/
structure PyRNG where
  oracle : RandomOracle
  pos : ℕ

/-- `rng.random()`. -/
def PyRNG.random (g : PyRNG) : ℝ × PyRNG :=
  (g.oracle.randomVal g.pos, ⟨g.oracle, g.pos + 1⟩)

/-- `rng.randint(a, b)` (inclusive bounds, as in Python). -/
def PyRNG.randint (g : PyRNG) (a b : ℕ) : ℕ × PyRNG :=
  (g.oracle.randintVal g.pos a b, ⟨g.oracle, g.pos + 1⟩)

/-- `rng.normalvariate(mu, sigma)`. -/
def PyRNG.normalvariate (g : PyRNG) (mu sigma : ℝ) : ℝ × PyRNG :=
  (g.oracle.normalVal g.pos mu sigma, ⟨g.oracle, g.pos + 1⟩)

/-- `rng.choice(seq)`: picks the element at an oracle-chosen index. -/
def PyRNG.choice {α : Type} (g : PyRNG) (l : List α) (dflt : α) : α × PyRNG :=
  (l.getD (g.oracle.choiceIdx g.pos l.length) dflt, ⟨g.oracle, g.pos + 1⟩)

/-- What Python's `random` guarantees about the drawn values. -/
def RandomOracle.Valid (o : RandomOracle) : Prop :=
  (∀ k, 0 ≤ o.randomVal k ∧ o.randomVal k < 1)
  ∧ (∀ k a b, a ≤ b → a ≤ o.randintVal k a b ∧ o.randintVal k a b ≤ b)
  ∧ (∀ k len, 0 < len → o.choiceIdx k len < len)

/-- The oracle behind one `np.random.RandomState` instance. -/
structure NpOracle where
  uniformVal : ℕ → ℝ → ℝ → ℝ

/-- A `np.random.RandomState` generator. -/
structure NpRNG where
  oracle : NpOracle
  pos : ℕ

/-- `rng_np.uniform(lo, hi)`. -/
def NpRNG.uniform (g : NpRNG) (lo hi : ℝ) : ℝ × NpRNG :=
  (g.oracle.uniformVal g.pos lo hi, ⟨g.oracle, g.pos + 1⟩)

/-! ## `components/sources.py` -/

/-- `STATE_0`. -/
noncomputable def STATE_0 : Fin 2 → ℂ := fun i => if i = 0 then 1 else 0

/-- `STATE_1`. -/
noncomputable def STATE_1 : Fin 2 → ℂ := fun i => if i = 1 then 1 else 0

/-- `STATE_PLUS = (STATE_0 + STATE_1)/sqrt(2)`. -/
noncomputable def STATE_PLUS : Fin 2 → ℂ :=
  fun i => (STATE_0 i + STATE_1 i) / (Real.sqrt 2 : ℝ)

/-- `STATE_MINUS = (STATE_0 - STATE_1)/sqrt(2)`. -/
noncomputable def STATE_MINUS : Fin 2 → ℂ :=
  fun i => (STATE_0 i - STATE_1 i) / (Real.sqrt 2 : ℝ)

/-- `prepare_bb84_qubit` (its callers always pass bits and bases in `{0,1}`,
so the `ValueError` branches are unreachable there). -/
noncomputable def prepare_bb84_qubit (bit_to_send basis_choice : ℕ) :
    Fin 2 → ℂ :=
  if basis_choice = 0 then
    if bit_to_send = 0 then STATE_0 else STATE_1
  else
    if bit_to_send = 0 then STATE_PLUS else STATE_MINUS

/-! ## `components/channels.py` -/

/-- `apply_lossy_channel(photon_state, loss_probability, rng)`: uses the
provided generator if one is passed, otherwise the ambient module-level
generator `amb` (`rand_gen = rng if rng is not None else random`).  Returns
the possibly-lost photon together with the updated provided generator and
the updated ambient generator. -/
noncomputable def apply_lossy_channel {α : Type} (photon_state : Option α)
    (loss_probability : ℝ) (rng : Option PyRNG) (amb : PyRNG) :
    Option α × Option PyRNG × PyRNG :=
  match photon_state with
  | none => (none, rng, amb)
  | some st =>
    match rng with
    | some g =>
      let rg := g.random
      (if rg.1 < loss_probability then none else some st, some rg.2, amb)
    | none =>
      let rg := amb.random
      (if rg.1 < loss_probability then none else some st, none, rg.2)

/-! ## `components/aether_relay.py` -/

/-- The possible announcements of the relay. -/
inductive Announce where
  | fail
  | psi_plus
  | psi_minus
  | phi_plus
  | phi_minus
deriving DecidableEq

/-- `simulate_perfect_bsm` of `components/aether_relay.py`: fails exactly on
photon loss; otherwise announces one of the four Bell outcomes, split by a
fair coin on matched bases and a four-way draw on mismatched bases. -/
noncomputable def simulate_perfect_bsm {α : Type} (qubit_a qubit_b : Option α)
    (alice_bit bob_bit alice_basis bob_basis : ℕ) (g : PyRNG) :
    Announce × PyRNG :=
  match qubit_a, qubit_b with
  | none, _ => (Announce.fail, g)
  | _, none => (Announce.fail, g)
  | some _, some _ =>
    if alice_basis = bob_basis then
      if alice_bit = bob_bit then
        let rg := g.random
        (if rg.1 < 0.5 then Announce.phi_plus else Announce.psi_plus, rg.2)
      else
        let rg := g.random
        (if rg.1 < 0.5 then Announce.phi_minus else Announce.psi_minus, rg.2)
    else
      let rg := g.random
      (if rg.1 < 0.25 then Announce.psi_minus
       else if rg.1 < 0.50 then Announce.psi_plus
       else if rg.1 < 0.75 then Announce.phi_minus
       else Announce.phi_plus, rg.2)

/-! ## `controller/immune_system.py` -/

/-- The thresholds and z-score of `TEALController.__init__`. -/
structure TEALController where
  qber_threshold : ℝ
  leakage_threshold : ℝ
  z_score : ℝ

/-- A controller with the default construction arguments
(`qber_threshold=0.03`, `leakage_threshold=0.015`, `z_score=1.96`). -/
noncomputable def TEALController.default : TEALController := ⟨0.03, 0.015, 1.96⟩

/-- The diagnostic statistics record returned by `run_diagnostics`. -/
structure DiagnosticStats where
  qber_mean : ℝ
  qber_upper_bound : ℝ
  leakage_upper_bound : ℝ

/-- The fixed fail-safe statistics of the `sifted_len < 30` branch. -/
noncomputable def failsafeStats : DiagnosticStats := ⟨0.5, 1, 1⟩

/-- The protocol mode decided by the controller. -/
inductive Mode where
  | NoLock
  | Lock
deriving DecidableEq

/-- The controller's decision record `{mode, locking_depth}`. -/
structure Decision where
  mode : Mode
  locking_depth : ℕ
deriving DecidableEq

/-- `TEALController.make_adaptive_decision`. -/
noncomputable def TEALController.make_adaptive_decision (c : TEALController)
    (diagnostic_stats : DiagnosticStats) : Decision :=
  if diagnostic_stats.qber_upper_bound < c.qber_threshold
      ∧ diagnostic_stats.leakage_upper_bound < c.leakage_threshold
  then ⟨Mode.NoLock, 0⟩
  else ⟨Mode.Lock, 8⟩

/-- `TEALController._simulate_bsm`: the controller's internal diagnostic BSM.
Mismatched bases fail outright (no draw); matched bases succeed with
probability `0.25`, announcing `psi_plus` on equal bits and `psi_minus`
otherwise. -/
noncomputable def TEALController.simulateBsmDiag {α : Type}
    (qubit_a qubit_b : Option α) (alice_bit bob_bit alice_basis bob_basis : ℕ)
    (g : PyRNG) : Announce × PyRNG :=
  match qubit_a, qubit_b with
  | none, _ => (Announce.fail, g)
  | _, none => (Announce.fail, g)
  | some _, some _ =>
    if alice_basis = bob_basis then
      if alice_bit = bob_bit then
        let rg := g.random
        (if rg.1 < 0.25 then Announce.psi_plus else Announce.fail, rg.2)
      else
        let rg := g.random
        (if rg.1 < 0.25 then Announce.psi_minus else Announce.fail, rg.2)
    else (Announce.fail, g)

/-- A list comprehension `[rng.randint(0,1) for _ in range(count)]`. -/
def drawBits : ℕ → PyRNG → List ℕ × PyRNG
  | 0, g => ([], g)
  | k + 1, g =>
    let bg := g.randint 0 1
    let rest := drawBits k bg.2
    (bg.1 :: rest.1, rest.2)

/-- One diagnostic round of `run_diagnostics`: prepare both qubits, pass each
through the lossy channel (with the provided generator), and attempt the
internal BSM. -/
noncomputable def diagRound (true_channel_loss : ℝ) (ab aβ bb bβ : ℕ)
    (g : PyRNG) (amb : PyRNG) : Announce × PyRNG × PyRNG :=
  let qa := some (prepare_bb84_qubit ab aβ)
  let qb := some (prepare_bb84_qubit bb bβ)
  let ca := apply_lossy_channel qa true_channel_loss (some g) amb
  let g₁ := ca.2.1.getD g
  let cb := apply_lossy_channel qb true_channel_loss (some g₁) ca.2.2
  let g₂ := cb.2.1.getD g₁
  let res := TEALController.simulateBsmDiag ca.1 cb.1 ab bb aβ bβ g₂
  (res.1, res.2, cb.2.2)

/-- The sifting append of one diagnostic round: sift Alice's bit on any BSM
success; record Bob's bit flipped for `psi_minus` and unchanged for
`psi_plus` (no Bob record for other outcomes). -/
def diagAppend (ann : Announce) (ab bb : ℕ)
    (rest : List ℕ × List ℕ × PyRNG × PyRNG) :
    List ℕ × List ℕ × PyRNG × PyRNG :=
  match ann with
  | Announce.fail => rest
  | Announce.psi_minus => (ab :: rest.1, (1 - bb) :: rest.2.1, rest.2.2)
  | Announce.psi_plus => (ab :: rest.1, bb :: rest.2.1, rest.2.2)
  | _ => (ab :: rest.1, rest.2.1, rest.2.2)

noncomputable def diagSiftLoop (true_channel_loss : ℝ) :
    List ℕ → List ℕ → List ℕ → List ℕ → PyRNG → PyRNG →
    List ℕ × List ℕ × PyRNG × PyRNG
  | ab :: aks, aβ :: aβs, bb :: bks, bβ :: bβs, g, amb =>
    let r := diagRound true_channel_loss ab aβ bb bβ g amb
    diagAppend r.1 ab bb
      (diagSiftLoop true_channel_loss aks aβs bks bβs r.2.1 r.2.2)
  | _, _, _, _, g, amb => ([], [], g, amb)

/-- `sum(a != b for a, b in zip(sifted_alice, sifted_bob))`. -/
def countMismatch (sa sb : List ℕ) : ℕ :=
  ((sa.zip sb).filter fun p => p.1 ≠ p.2).length

/-- The sifted diagnostic sample of `run_diagnostics`: the four drawn
key/basis lists followed by the sifting loop. -/
noncomputable def diagSifted (num_test_rounds : ℕ) (true_channel_loss : ℝ)
    (g : PyRNG) (amb : PyRNG) : List ℕ × List ℕ × PyRNG × PyRNG :=
  let ak := drawBits num_test_rounds g
  let aβ := drawBits num_test_rounds ak.2
  let bk := drawBits num_test_rounds aβ.2
  let bβ := drawBits num_test_rounds bk.2
  diagSiftLoop true_channel_loss ak.1 aβ.1 bk.1 bβ.1 bβ.2 amb

/-- The clamped diagnostic leakage estimate
`leakage_mean_clipped = max(0, true_source_leakage + gaussian_noise)`. -/
noncomputable def leakMeanClipped (true_source_leakage noise : ℝ) : ℝ :=
  max 0 (true_source_leakage + noise)

/-- The argument of the square root in the leakage standard error:
`leakage_mean_clipped * (1 - leakage_mean_clipped) / num_test_rounds`. -/
noncomputable def leakVarArg (true_source_leakage noise : ℝ)
    (num_test_rounds : ℕ) : ℝ :=
  leakMeanClipped true_source_leakage noise
    * (1 - leakMeanClipped true_source_leakage noise) / num_test_rounds

/-- `TEALController.run_diagnostics`: runs the internal simulation, returns
the fail-safe statistics when fewer than 30 samples sift, and otherwise the
confidence-bounded estimates. -/
noncomputable def TEALController.run_diagnostics (c : TEALController)
    (num_test_rounds : ℕ) (true_channel_loss true_source_leakage : ℝ)
    (g : PyRNG) (amb : PyRNG) : DiagnosticStats × PyRNG × PyRNG :=
  let s := diagSifted num_test_rounds true_channel_loss g amb
  if s.1.length < 30 then (failsafeStats, s.2.2)
  else
    let errors := countMismatch s.1 s.2.1
    let qber_mean := (errors : ℝ) / s.1.length
    let qber_std_error := Real.sqrt ((qber_mean * (1 - qber_mean)) / s.1.length)
    let qber_upper_bound := qber_mean + c.z_score * qber_std_error
    let nv := (s.2.2.1).normalvariate 0 0.005
    let leakage_mean_clipped := leakMeanClipped true_source_leakage nv.1
    let leakage_std_error :=
      Real.sqrt (leakVarArg true_source_leakage nv.1 num_test_rounds) + 0.001
    let leakage_upper_bound := leakage_mean_clipped + c.z_score * leakage_std_error
    (⟨qber_mean, max 0 qber_upper_bound, max 0 leakage_upper_bound⟩,
      nv.2, s.2.2.2)

/-! ## `locking/core.py`: the adaptive braid generator -/

/-- `random_single_qubit_rotation_from_rng`: Haar-random rotation
`Rz(φ)·Ry(θ)·Rz(λ)` with `φ, λ ~ U[0,2π)` and `θ = arccos(U[-1,1])`. -/
noncomputable def random_single_qubit_rotation_from_rng (g : NpRNG) :
    Matrix (Fin 2) (Fin 2) ℂ × NpRNG :=
  let u1 := g.uniform 0 (2 * Real.pi)
  let u2 := u1.2.uniform (-1) 1
  let u3 := u2.2.uniform 0 (2 * Real.pi)
  let phi := u1.1
  let theta := Real.arccos u2.1
  let lam := u3.1
  let Rz1 : Matrix (Fin 2) (Fin 2) ℂ :=
    !![Complex.exp (-Complex.I * (phi : ℂ) / 2), 0;
       0, Complex.exp (Complex.I * (phi : ℂ) / 2)]
  let Ry : Matrix (Fin 2) (Fin 2) ℂ :=
    !![(Real.cos (theta / 2) : ℂ), (-(Real.sin (theta / 2) : ℝ) : ℂ);
       (Real.sin (theta / 2) : ℂ), (Real.cos (theta / 2) : ℂ)]
  let Rz2 : Matrix (Fin 2) (Fin 2) ℂ :=
    !![Complex.exp (-Complex.I * (lam : ℂ) / 2), 0;
       0, Complex.exp (Complex.I * (lam : ℂ) / 2)]
  (Rz1 * Ry * Rz2, u3.2)

/-- `long_range_pairs`: all ordered pairs at index distance `> 1`. -/
def longRangePairs (n_qubits : ℕ) : List (ℕ × ℕ) :=
  ((List.range n_qubits).map fun i =>
    (List.range n_qubits).filterMap fun j =>
      if 1 < Nat.dist i j then some (i, j) else none).flatten

/-- `current_prob`: linear interpolation from `p_initial` at step 0 to
`p_final` at step `depth-1` (or `p_final` when `depth ≤ 1`). -/
noncomputable def braidStepProb (p_initial p_final : ℝ) (depth step : ℕ) : ℝ :=
  if 1 < depth then
    p_initial + (p_final - p_initial) * ((step : ℝ) / ((depth : ℝ) - 1))
  else p_final

/-- One qubit-pair draw of the braid generator: with the step's probability
(and `n ≥ 4`) a uniformly chosen long-range pair, otherwise an adjacent pair
with the control/target order randomized by a fair coin. -/
noncomputable def braidGateDraw (n_qubits : ℕ) (prob : ℝ) (g : PyRNG) :
    (ℕ × ℕ) × PyRNG :=
  let r := g.random
  if r.1 < prob ∧ 4 ≤ n_qubits then
    r.2.choice (longRangePairs n_qubits) (0, 0)
  else
    let ig := r.2.randint 0 (n_qubits - 2)
    let r2 := ig.2.random
    (if r2.1 < 0.5 then (ig.1 + 1, ig.1) else (ig.1, ig.1 + 1), r2.2)

/-- The loop body of `build_adaptive_braid_v4_gate_list` over the remaining
step indices. -/
noncomputable def braidLoop (n_qubits depth : ℕ) (p_initial p_final : ℝ) :
    List ℕ → PyRNG → NpRNG → List (AbstractGate ℂ) × PyRNG × NpRNG
  | [], g, gnp => ([], g, gnp)
  | step :: rest, g, gnp =>
    let prob := braidStepProb p_initial p_final depth step
    let ct := braidGateDraw n_qubits prob g
    let rc := random_single_qubit_rotation_from_rng gnp
    let rt := random_single_qubit_rotation_from_rng rc.2
    let tail := braidLoop n_qubits depth p_initial p_final rest ct.2 rt.2
    (⟨ct.1.1, ct.1.2, rc.1, rt.1⟩ :: tail.1, tail.2)

/-- `build_adaptive_braid_v4_gate_list` (with the default
`p_initial = 0.5`, `p_final = 0.05` supplied by its caller). -/
noncomputable def build_adaptive_braid_v4_gate_list (n_qubits depth : ℕ)
    (p_initial p_final : ℝ) (g : PyRNG) (gnp : NpRNG) :
    List (AbstractGate ℂ) × PyRNG × NpRNG :=
  braidLoop n_qubits depth p_initial p_final (List.range depth) g gnp

/-! ## `physics/evolution.py`: noisy evolution -/

/-- The negligibility filter of `_gate_on_n`: `abs(amplitude) > 1e-9`. -/
noncomputable def keepC : ℂ → Bool :=
  fun z => decide ((1 / 10 ^ 9 : ℝ) < Complex.abs z)

/-- `PAULI_1Q_LIST[k]`. -/
noncomputable def PAULI_1Q (k : ℕ) : Matrix (Fin 2) (Fin 2) ℂ :=
  if k = 1 then !![0, 1; 1, 0]
  else if k = 2 then !![0, -Complex.I; Complex.I, 0]
  else if k = 3 then !![1, 0; 0, -1]
  else 1

/-- The sorted target pair the evolution engine uses for a compiled gate. -/
def gateTargets : CompiledGate ℂ → ℕ × ℕ
  | CompiledGate.swap a b => (min a b, max a b)
  | CompiledGate.gate c t _ _ => (min c t, max c t)

/-- One step of `evolve_state_vector_noisily`: apply the ideal embedded gate,
then with probability `noise_p` (only checked when `noise_p > 0`) a random
two-qubit Pauli error on the gate's wires. -/
noncomputable def evolveGate (n : ℕ) (psi : Fin (2 ^ n) → ℂ)
    (cg : CompiledGate ℂ) (noise_p : ℝ) (g : PyRNG) :
    (Fin (2 ^ n) → ℂ) × PyRNG :=
  let psi₁ := (gateMatrix n keepC cg).mulVec psi
  if 0 < noise_p then
    let r := g.random
    if r.1 < noise_p then
      let p1 := r.2.randint 1 3
      let p2 := p1.2.randint 1 3
      let noiseOp := gateOnN2 n keepC (kron22 (PAULI_1Q p1.1) (PAULI_1Q p2.1))
        (gateTargets cg).1 (gateTargets cg).2
      (noiseOp.mulVec psi₁, p2.2)
    else (psi₁, r.2)
  else (psi₁, g)

/-- `evolve_state_vector_noisily`. -/
noncomputable def evolve_state_vector_noisily (n : ℕ) (psi : Fin (2 ^ n) → ℂ)
    (compiled_list : List (CompiledGate ℂ)) (noise_p : ℝ) (g : PyRNG) :
    (Fin (2 ^ n) → ℂ) × PyRNG :=
  compiled_list.foldl (fun acc cg => evolveGate n acc.1 cg noise_p acc.2) (psi, g)

/-! ## `adversary/threat_models.py`: `SourceLeakageAdversary` -/

/-- The simple source-leakage adversary (its `.strength` field is what the
orchestrator hands to the controller). -/
structure SourceLeakageAdversary where
  strength : ℝ

/-- `execute_source_attack`: returns the key unchanged plus a leakage of
`1.0` with probability `strength`, else `0.0`. -/
noncomputable def SourceLeakageAdversary.execute_source_attack {α : Type}
    (adv : SourceLeakageAdversary) (alice_key : α) (g : PyRNG) :
    α × ℝ × PyRNG :=
  let r := g.random
  (alice_key, if r.1 < adv.strength then 1 else 0, r.2)

/-! ## `analysis/aether_analysis_v3.py` (and the identical
`shannon_entropy` of `analysis/finite_key_analysis_v2.py`) -/

/-- `shannon_entropy(p)`: binary entropy, `0` outside `(0, 1)`. -/
noncomputable def shannon_entropy (p : ℝ) : ℝ :=
  if p ≤ 0 ∨ 1 ≤ p then 0
  else -p * Real.logb 2 p - (1 - p) * Real.logb 2 (1 - p)

/-- The four sifted streams accumulated by the orchestrator. -/
structure SiftedData where
  hq_alice : List ℕ
  hq_bob : List ℕ
  rc_alice : List ℕ
  rc_bob : List ℕ

/-- The final report of one protocol run. -/
structure AetherReport where
  diagnostic_qber : ℝ
  secure_key_rate : ℝ
  sifted_key_length : ℕ
  mode_chosen : Mode

/-- `run_aether_v3_analysis` with the orchestrator's
`final_results['mode_chosen'] = mode` attachment. -/
noncomputable def run_aether_v3_analysis (sifted_data : SiftedData)
    (total_qubits : ℕ) (is_lock_mode : Bool) (source_leakage : ℝ)
    (mode : Mode) : AetherReport :=
  let qber_diag : ℝ :=
    if 20 < sifted_data.rc_alice.length then
      (countMismatch sifted_data.rc_alice sifted_data.rc_bob : ℝ)
        / sifted_data.rc_alice.length
    else 0
  let sifting_eff : ℝ :=
    if 0 < total_qubits then
      (sifted_data.hq_alice.length : ℝ) / total_qubits
    else 0
  let leakage := if is_lock_mode then 0 else source_leakage
  let eve_info := shannon_entropy qber_diag + shannon_entropy leakage
  let bob_cost := shannon_entropy qber_diag * 1.1
  let rate := sifting_eff * (1 - eve_info - bob_cost)
  ⟨qber_diag, max 0 rate, sifted_data.hq_alice.length, mode⟩

/-! ## `protocols/aether_v3.py`: the orchestrator -/

/-- `np.kron` of a `2^k`-dimensional state with one more qubit (the new
qubit becomes the least-significant bit, matching the big-endian wire
order of `_gate_on_n`). -/
noncomputable def qkron (k : ℕ) (v : Fin (2 ^ k) → ℂ) (w : Fin 2 → ℂ) :
    Fin (2 ^ (k + 1)) → ℂ :=
  fun x =>
    v ⟨x.val / 2, by
        have hx := x.isLt
        have hp : (2 : ℕ) ^ (k + 1) = 2 ^ k * 2 := pow_succ 2 k
        omega⟩
      * w ⟨x.val % 2, by omega⟩

/-- The block-state assembly loop
`psi_init = kron(psi_init, prepare_bb84_qubit(ak[i], ab[i]))`. -/
noncomputable def buildBlockState (bits bases : List ℕ) :
    (k : ℕ) → Fin (2 ^ k) → ℂ
  | 0 => fun _ => 1
  | k + 1 => qkron k (buildBlockState bits bases k)
      (prepare_bb84_qubit (bits.getD k 0) (bases.getD k 0))

/-- `np.vdot`: the inner product conjugating its first argument. -/
noncomputable def vdot (n : ℕ) (a b : Fin (2 ^ n) → ℂ) : ℂ :=
  ∑ i, (starRingEnd ℂ) (a i) * b i

/-- The fidelity-collapse step of the Lock branch: draw `r = rng.random()`;
if `r > fidelity` flip the classical bit at a uniformly drawn block index
(`eff_ak[rng.randint(0, block_size-1)] ^= 1`), else leave the block
unchanged. -/
noncomputable def fidelityCollapse (block_size : ℕ) (eff_ak : List ℕ)
    (fidelity : ℝ) (g : PyRNG) : List ℕ × PyRNG :=
  let r := g.random
  if fidelity < r.1 then
    let ig := r.2.randint 0 (block_size - 1)
    (eff_ak.set ig.1 ((eff_ak.getD ig.1 0) ^^^ 1), ig.2)
  else (eff_ak, r.2)

/-- The paired sifting append of the orchestrator: on relay success append
to the high-quality pair when bases match (Bob's bit flipped on
`psi_minus`/`phi_minus`), else to the recycled pair with the
basis-dependent diagnostic recovery rule; on failure nothing changes. -/
def siftUpdate (sd : SiftedData) (aβ bβ : ℕ) (ann : Announce)
    (ea bk : ℕ) : SiftedData :=
  if ann ≠ Announce.fail then
    if aβ = bβ then
      { sd with
        hq_alice := sd.hq_alice ++ [ea]
        hq_bob := sd.hq_bob ++
          [if ann = Announce.psi_minus ∨ ann = Announce.phi_minus
           then 1 - bk else bk] }
    else
      { sd with
        rc_alice := sd.rc_alice ++ [ea]
        rc_bob := sd.rc_bob ++
          [if aβ = 0 then
             (if ann = Announce.psi_minus ∨ ann = Announce.phi_plus
              then bk else 1 - bk)
           else
             (if ann = Announce.psi_minus ∨ ann = Announce.phi_minus
              then bk else 1 - bk)] }
  else sd

/-- One signal of the orchestrator's inner loop: the NoLock hardware flip on
Alice's bit, Bob's hardware flip, both lossy channels, the relay, and the
sifting append. -/
noncomputable def signalStep (mode : Mode) (noise loss : ℝ)
    (ea bk_i aβ bβ : ℕ) (sd : SiftedData) (g : PyRNG) (amb : PyRNG) :
    SiftedData × PyRNG × PyRNG :=
  let s₁ : ℕ × PyRNG :=
    if mode = Mode.NoLock then
      let r := g.random
      (if r.1 < noise then ea ^^^ 1 else ea, r.2)
    else (ea, g)
  let r₂ := s₁.2.random
  let bk' := if r₂.1 < noise then bk_i ^^^ 1 else bk_i
  let qa := some (prepare_bb84_qubit s₁.1 aβ)
  let qb := some (prepare_bb84_qubit bk' bβ)
  let ca := apply_lossy_channel qa loss (some r₂.2) amb
  let g₁ := ca.2.1.getD r₂.2
  let cb := apply_lossy_channel qb loss (some g₁) ca.2.2
  let g₂ := cb.2.1.getD g₁
  let ann := simulate_perfect_bsm ca.1 cb.1 s₁.1 bk' aβ bβ g₂
  (siftUpdate sd aβ bβ ann.1 s₁.1 bk', ann.2, cb.2.2)

/-- The orchestrator's inner loop over the signals of one block. -/
noncomputable def signalLoop (mode : Mode) (noise loss : ℝ) :
    List ℕ → List ℕ → List ℕ → List ℕ → SiftedData → PyRNG → PyRNG →
    SiftedData × PyRNG × PyRNG
  | ea :: eas, bk :: bks, aβ :: aβs, bβ :: bβs, sd, g, amb =>
    let st := signalStep mode noise loss ea bk aβ bβ sd g amb
    signalLoop mode noise loss eas bks aβs bβs st.1 st.2.1 st.2.2
  | _, _, _, _, sd, g, amb => (sd, g, amb)

/-- One block of the orchestrator: key/basis draws, the adversary's source
attack, block-state assembly, the optional lock/unlock/fidelity collapse,
and the per-signal loop. -/
noncomputable def blockStep (mode : Mode) (block_size : ℕ) (loss noise : ℝ)
    (adv : SourceLeakageAdversary)
    (lock : Option (List (CompiledGate ℂ)
      × Matrix (Fin (2 ^ block_size)) (Fin (2 ^ block_size)) ℂ))
    (state : SiftedData × ℝ × PyRNG × PyRNG) :
    SiftedData × ℝ × PyRNG × PyRNG :=
  let ak := drawBits block_size state.2.2.1
  let aβ := drawBits block_size ak.2
  let att := adv.execute_source_attack ak.1 aβ.2
  let bk := drawBits block_size att.2.2
  let bβ := drawBits block_size bk.2
  let psi_init := buildBlockState ak.1 aβ.1 block_size
  let lockRes : List ℕ × PyRNG :=
    match lock with
    | some cl =>
      let ev := evolve_state_vector_noisily block_size psi_init cl.1 noise bβ.2
      let psi_unlocked := cl.2.mulVec ev.1
      let fidelity := (Complex.abs (vdot block_size psi_init psi_unlocked)) ^ 2
      fidelityCollapse block_size ak.1 fidelity ev.2
    | none => (ak.1, bβ.2)
  let sl := signalLoop mode noise loss lockRes.1 bk.1 aβ.1 bβ.1
    state.1 lockRes.2 state.2.2.2
  (sl.1, state.2.1 + att.2.1, sl.2.1, sl.2.2)

/-- The orchestrator's block loop, iterated `num_blocks` times. -/
noncomputable def blocksLoop (mode : Mode) (block_size : ℕ) (loss noise : ℝ)
    (adv : SourceLeakageAdversary)
    (lock : Option (List (CompiledGate ℂ)
      × Matrix (Fin (2 ^ block_size)) (Fin (2 ^ block_size)) ℂ)) :
    ℕ → SiftedData × ℝ × PyRNG × PyRNG → SiftedData × ℝ × PyRNG × PyRNG
  | 0, st => st
  | k + 1, st =>
    blocksLoop mode block_size loss noise adv lock k
      (blockStep mode block_size loss noise adv lock st)

/-- `num_blocks = num_qubits // block_size`: the orchestrator's block count
(integer division, silently dropping any remainder signals). -/
def numBlocks (num_qubits block_size : ℕ) : ℕ := num_qubits / block_size

/-- `run_aether_v3_protocol`.  `seedPy`/`seedNp` give the deterministic
oracle a `random.Random(seed)` / `np.random.RandomState(seed)` realizes;
`amb` is the ambient module-level generator that `apply_lossy_channel`
would fall back to if no generator were passed.  Returns the report, the
sifted streams, the final run generator and the final ambient generator. -/
noncomputable def run_aether_v3_protocol
    (seedPy : ℤ → RandomOracle) (seedNp : ℤ → NpOracle)
    (num_qubits block_size : ℕ) (loss noise : ℝ)
    (adv : SourceLeakageAdversary) (controller : TEALController) (seed : ℤ)
    (amb : PyRNG) : AetherReport × SiftedData × PyRNG × PyRNG :=
  let rng : PyRNG := ⟨seedPy seed, 0⟩
  let diag := controller.run_diagnostics 2000 loss adv.strength rng amb
  let decision := controller.make_adaptive_decision diag.1
  let lock : Option (List (CompiledGate ℂ)
      × Matrix (Fin (2 ^ block_size)) (Fin (2 ^ block_size)) ℂ) :=
    if decision.mode = Mode.Lock then
      let gl := build_adaptive_braid_v4_gate_list block_size
        decision.locking_depth 0.5 0.05 ⟨seedPy seed, 0⟩ ⟨seedNp seed, 0⟩
      let compiled := compile_circuit block_size gl.1
      some (compiled,
        (build_unitary_from_compiled block_size keepC compiled).conjTranspose)
    else none
  let final := blocksLoop decision.mode block_size loss noise adv lock
    (numBlocks num_qubits block_size) (⟨[], [], [], []⟩, 0, diag.2.1, diag.2.2)
  let leakage_prob : ℝ :=
    if 0 < numBlocks num_qubits block_size then
      final.2.1 / (numBlocks num_qubits block_size : ℝ)
    else 0
  let report := run_aether_v3_analysis final.1 num_qubits
    (decision.mode = Mode.Lock) leakage_prob decision.mode
  (report, final.1, final.2.2.1, final.2.2.2)

/-! ## `analysis/finite_key_analysis_v2.py` -/

/-- `chernoff_hoeffding_bound(num_errors, num_samples, security_parameter)`. -/
noncomputable def chernoff_hoeffding_bound (num_errors num_samples : ℕ)
    (security_parameter : ℝ) : ℝ :=
  if num_samples = 0 then 1
  else
    min 1 ((num_errors : ℝ) / num_samples
      + Real.sqrt (Real.log (1 / security_parameter) / (2 * num_samples)))

/-! ## Concrete generators used by the witnesses -/

/-- A deterministic oracle whose draws are all zero-like. -/
noncomputable def constOracle : RandomOracle :=
  ⟨fun _ => 0, fun _ a _ => a, fun _ mu _ => mu, fun _ _ => 0⟩

/-- A generator over `constOracle` at position 0. -/
noncomputable def constRNG : PyRNG := ⟨constOracle, 0⟩

/-- An oracle used by the C8 witness: `random()` draws `3/4` and
`randint(a, b)` returns `b`. -/
noncomputable def flipOracle : RandomOracle :=
  ⟨fun _ => 3 / 4, fun _ _ b => b, fun _ mu _ => mu, fun _ _ => 0⟩

/-! ## Claim theorems -/

/-- **C5.** `make_adaptive_decision` returns `{NoLock, 0}` iff both the QBER
upper bound and the leakage upper bound are strictly below their thresholds;
in every other case it returns `{Lock, 8}`. -/
theorem C5_make_adaptive_decision (c : TEALController) (s : DiagnosticStats) :
    (c.make_adaptive_decision s = ⟨Mode.NoLock, 0⟩
      ↔ s.qber_upper_bound < c.qber_threshold
        ∧ s.leakage_upper_bound < c.leakage_threshold)
    ∧ (¬ (s.qber_upper_bound < c.qber_threshold
          ∧ s.leakage_upper_bound < c.leakage_threshold)
        → c.make_adaptive_decision s = ⟨Mode.Lock, 8⟩) := by
  unfold TEALController.make_adaptive_decision
  constructor
  · constructor
    · intro h
      by_contra hc
      rw [if_neg hc] at h
      simp at h
    · intro h
      rw [if_pos h]
  · intro h
    rw [if_neg h]

/-- Witness for C5 at the default thresholds with the fail-safe statistics:
the hypothesis of the `Lock` branch holds and the decision is `{Lock, 8}`. -/
theorem C5_witness :
    (¬ ((failsafeStats.qber_upper_bound
          < TEALController.default.qber_threshold)
        ∧ (failsafeStats.leakage_upper_bound
          < TEALController.default.leakage_threshold)))
    ∧ TEALController.default.make_adaptive_decision failsafeStats
        = ⟨Mode.Lock, 8⟩ := by
  have hn : ¬ ((failsafeStats.qber_upper_bound
        < TEALController.default.qber_threshold)
      ∧ (failsafeStats.leakage_upper_bound
        < TEALController.default.leakage_threshold)) := by
    unfold failsafeStats TEALController.default
    norm_num
  exact ⟨hn, (C5_make_adaptive_decision TEALController.default failsafeStats).2 hn⟩

/-- **C6.** `chernoff_hoeffding_bound` returns exactly `1.0` at zero samples;
for positive samples it returns
`min(1, errors/samples + sqrt(ln(1/securityParam)/(2·samples)))`; and for a
fixed observed rate and a fixed security parameter in `(0, 1]` the bound is
non-increasing as the sample count grows. -/
theorem C6_chernoff_hoeffding_bound :
    (∀ (e : ℕ) (sp : ℝ), chernoff_hoeffding_bound e 0 sp = 1)
    ∧ (∀ (e n : ℕ) (sp : ℝ), n ≠ 0 →
        chernoff_hoeffding_bound e n sp
          = min 1 ((e : ℝ) / n + Real.sqrt (Real.log (1 / sp) / (2 * n))))
    ∧ (∀ (e₁ n₁ e₂ n₂ : ℕ) (sp : ℝ), 0 < n₁ → n₁ ≤ n₂ →
        (e₁ : ℝ) / n₁ = (e₂ : ℝ) / n₂ → 0 < sp → sp ≤ 1 →
        chernoff_hoeffding_bound e₂ n₂ sp ≤ chernoff_hoeffding_bound e₁ n₁ sp) := by
  refine ⟨fun e sp => rfl, fun e n sp hn => by
    unfold chernoff_hoeffding_bound
    rw [if_neg hn], ?_⟩
  intro e₁ n₁ e₂ n₂ sp h₁ h₁₂ hrate hsp hsp1
  have h₂ : 0 < n₂ := lt_of_lt_of_le h₁ h₁₂
  unfold chernoff_hoeffding_bound
  rw [if_neg (by omega), if_neg (by omega)]
  apply min_le_min le_rfl
  rw [← hrate]
  have hlog : 0 ≤ Real.log (1 / sp) := by
    apply Real.log_nonneg
    rw [le_div_iff hsp]
    linarith
  have hsqrt : Real.sqrt (Real.log (1 / sp) / (2 * n₂))
      ≤ Real.sqrt (Real.log (1 / sp) / (2 * n₁)) := by
    apply Real.sqrt_le_sqrt
    apply div_le_div_of_nonneg_left hlog
    · positivity
    · have : (n₁ : ℝ) ≤ (n₂ : ℝ) := Nat.cast_le.mpr h₁₂
      linarith
  linarith

/-- Witness for C6: sample sizes 1 and 2 with zero errors and security
parameter `1/2`. -/
theorem C6_witness :
    (0 < 1 ∧ 1 ≤ 2 ∧ ((0 : ℕ) : ℝ) / (1 : ℕ) = ((0 : ℕ) : ℝ) / (2 : ℕ)
      ∧ (0 : ℝ) < 1 / 2 ∧ (1 / 2 : ℝ) ≤ 1)
    ∧ chernoff_hoeffding_bound 0 2 (1 / 2)
        ≤ chernoff_hoeffding_bound 0 1 (1 / 2) := by
  refine ⟨⟨by norm_num, by norm_num, by norm_num, by norm_num, by norm_num⟩, ?_⟩
  exact C6_chernoff_hoeffding_bound.2.2 0 1 0 2 (1 / 2) (by norm_num)
    (by norm_num) (by norm_num) (by norm_num) (by norm_num)

/-- **C7 (counterexample).** At `trueLeakage = 1 ∈ [0,1]` and Gaussian draw
`0.1`, the clamp to zero does not prevent a negative variance argument: the
clamped estimate exceeds `1`, so
`leakageMean·(1−leakageMean)/n_test` is negative. -/
theorem C7_counterexample :
    ((0 : ℝ) ≤ 1 ∧ (1 : ℝ) ≤ 1)
    ∧ leakVarArg 1 (1 / 10) 2000 < 0 := by
  refine ⟨⟨by norm_num, le_refl 1⟩, ?_⟩
  unfold leakVarArg leakMeanClipped
  rw [max_eq_right (by norm_num : (0 : ℝ) ≤ 1 + 1 / 10)]
  norm_num

/-- **C7 (amended).** The diagnostic leakage estimate is clamped to `0`
before it enters the standard-error computation, and whenever the noisy
estimate `trueLeakage + noise` is at most `1` the argument of the square
root, `leakageMean·(1−leakageMean)/n_test`, is nonnegative.  (The clamp
protects only the negative side; estimates above `1` still produce a
negative argument, as the counterexample shows.) -/
theorem C7_leakVarArg_nonneg (tl noise : ℝ) (n : ℕ)
    (h : tl + noise ≤ 1) : 0 ≤ leakVarArg tl noise n := by
  unfold leakVarArg leakMeanClipped
  have h0 : (0 : ℝ) ≤ max 0 (tl + noise) := le_max_left 0 _
  have h1 : max 0 (tl + noise) ≤ 1 := max_le (by norm_num) h
  have hn : (0 : ℝ) ≤ (n : ℝ) := Nat.cast_nonneg n
  apply div_nonneg _ hn
  apply mul_nonneg h0
  linarith

/-- Witness for the amended C7 at `trueLeakage = 1/2`, noise `0`. -/
theorem C7_witness :
    ((1 / 2 : ℝ) + 0 ≤ 1) ∧ 0 ≤ leakVarArg (1 / 2) 0 2000 :=
  ⟨by norm_num, C7_leakVarArg_nonneg (1 / 2) 0 2000 (by norm_num)⟩

/-- **C3.** The orchestrator's block count is the integer division
`num_qubits // block_size`: at `totalSignals = 5`, `blockSize = 2` it runs
2 blocks covering only 4 of the 5 signals and never raises a configuration
error — the remainder signal is silently dropped, contradicting the
specified `InvalidArgument` behaviour. -/
theorem C3_silent_truncation :
    numBlocks 5 2 = 2 ∧ numBlocks 5 2 * 2 = 4 ∧ ¬ numBlocks 5 2 * 2 = 5 := by
  refine ⟨rfl, rfl, by decide⟩

/-- **C10.** The relay `simulate_perfect_bsm` returns `fail` iff at least
one input state is `None`; whenever both photons survive it announces one
of the four Bell outcomes, whether or not the bases match. -/
theorem C10_simulate_perfect_bsm {α : Type} (qa qb : Option α)
    (ab bb aβ bβ : ℕ) (g : PyRNG) :
    ((simulate_perfect_bsm qa qb ab bb aβ bβ g).1 = Announce.fail
      ↔ (qa = none ∨ qb = none))
    ∧ (qa ≠ none → qb ≠ none →
        (simulate_perfect_bsm qa qb ab bb aβ bβ g).1 = Announce.psi_plus
        ∨ (simulate_perfect_bsm qa qb ab bb aβ bβ g).1 = Announce.psi_minus
        ∨ (simulate_perfect_bsm qa qb ab bb aβ bβ g).1 = Announce.phi_plus
        ∨ (simulate_perfect_bsm qa qb ab bb aβ bβ g).1 = Announce.phi_minus) := by
  cases qa with
  | none => exact ⟨by simp [simulate_perfect_bsm], fun h _ => absurd rfl h⟩
  | some xa =>
    cases qb with
    | none => exact ⟨by simp [simulate_perfect_bsm], fun _ h => absurd rfl h⟩
    | some xb =>
      constructor
      · simp only [simulate_perfect_bsm]
        split_ifs <;> simp
      · intro _ _
        simp only [simulate_perfect_bsm]
        split_ifs <;> simp

/-- Witness for C10: both photons present, mismatched bases, concrete
generator. -/
theorem C10_witness :
    (some (0 : ℕ) ≠ none) ∧
    ((simulate_perfect_bsm (some (0 : ℕ)) (some 0) 0 0 0 1 constRNG).1
        = Announce.psi_plus
      ∨ (simulate_perfect_bsm (some (0 : ℕ)) (some 0) 0 0 0 1 constRNG).1
        = Announce.psi_minus
      ∨ (simulate_perfect_bsm (some (0 : ℕ)) (some 0) 0 0 0 1 constRNG).1
        = Announce.phi_plus
      ∨ (simulate_perfect_bsm (some (0 : ℕ)) (some 0) 0 0 0 1 constRNG).1
        = Announce.phi_minus) :=
  ⟨by simp, (C10_simulate_perfect_bsm (some 0) (some 0) 0 0 0 1 constRNG).2
    (by simp) (by simp)⟩

theorem xor_one_ne (x : ℕ) : x ^^^ 1 ≠ x := by
  intro h
  have h2 : x ^^^ (x ^^^ 1) = x ^^^ x := by rw [h]
  rw [← Nat.xor_assoc, Nat.xor_self, Nat.zero_xor] at h2
  exact one_ne_zero h2

/-- Closed form of one fidelity-collapse step. -/
theorem fidelityCollapse_eq (block_size : ℕ) (eff_ak : List ℕ)
    (fidelity : ℝ) (g : PyRNG) :
    fidelityCollapse block_size eff_ak fidelity g
      = if fidelity < g.oracle.randomVal g.pos then
          (eff_ak.set (g.oracle.randintVal (g.pos + 1) 0 (block_size - 1))
            ((eff_ak.getD (g.oracle.randintVal (g.pos + 1) 0 (block_size - 1)) 0)
              ^^^ 1),
           ⟨g.oracle, g.pos + 2⟩)
        else (eff_ak, ⟨g.oracle, g.pos + 1⟩) := rfl

/-- **C8.** In Lock mode the collapse step flips exactly one classical bit
of the block — at the uniformly drawn index — precisely when the drawn
uniform variate exceeds the fidelity, and leaves the block untouched
otherwise; in particular the block differs from its original in at most one
position.  (The probability-(1−fidelity) statement is determinized: the
draw is the uniform `rng.random()` value, so the flip branch is taken with
probability `1 − fidelity`, and the flipped index is `rng.randint(0,
blockSize−1)`, uniform on the block.) -/
theorem C8_fidelity_collapse (block_size : ℕ) (eff_ak : List ℕ)
    (fidelity : ℝ) (g : PyRNG) :
    ((¬ fidelity < g.oracle.randomVal g.pos) →
        (fidelityCollapse block_size eff_ak fidelity g).1 = eff_ak)
    ∧ (fidelity < g.oracle.randomVal g.pos →
        (fidelityCollapse block_size eff_ak fidelity g).1
          = eff_ak.set (g.oracle.randintVal (g.pos + 1) 0 (block_size - 1))
              ((eff_ak.getD (g.oracle.randintVal (g.pos + 1) 0 (block_size - 1)) 0)
                ^^^ 1))
    ∧ (∃ idx : ℕ, ∀ j, j ≠ idx →
        (fidelityCollapse block_size eff_ak fidelity g).1.getD j 0
          = eff_ak.getD j 0)
    ∧ (fidelity < g.oracle.randomVal g.pos →
        g.oracle.randintVal (g.pos + 1) 0 (block_size - 1) < eff_ak.length →
        (fidelityCollapse block_size eff_ak fidelity g).1.getD
            (g.oracle.randintVal (g.pos + 1) 0 (block_size - 1)) 0
          ≠ eff_ak.getD (g.oracle.randintVal (g.pos + 1) 0 (block_size - 1)) 0) := by
  refine ⟨fun h => by rw [fidelityCollapse_eq, if_neg h],
    fun h => by rw [fidelityCollapse_eq, if_pos h], ?_, ?_⟩
  · by_cases h : fidelity < g.oracle.randomVal g.pos
    · refine ⟨g.oracle.randintVal (g.pos + 1) 0 (block_size - 1), fun j hj => ?_⟩
      rw [fidelityCollapse_eq, if_pos h]
      simp only [List.getD_eq_getElem?_getD]
      rw [List.getElem?_set_ne (Ne.symm hj)]
    · refine ⟨0, fun j _ => ?_⟩
      rw [fidelityCollapse_eq, if_neg h]
  · intro h hlen
    rw [fidelityCollapse_eq, if_pos h]
    simp only [List.getD_eq_getElem?_getD]
    rw [List.getElem?_set_self hlen]
    simp only [Option.getD_some]
    exact fun hc => xor_one_ne _ (hc.trans (by rfl))

/-- Witness for C8: a two-bit block `[0,0]`, fidelity `1/2`, and a generator
drawing `3/4` then index `1`: the bit at index 1 is flipped. -/
theorem C8_witness :
    ((1 / 2 : ℝ) < 3 / 4) ∧ ((1 : ℕ) < 2)
    ∧ (fidelityCollapse 2 [0, 0] (1 / 2) ⟨flipOracle, 0⟩).1.getD 1 0
      ≠ ([0, 0] : List ℕ).getD 1 0 :=
  ⟨by norm_num, by norm_num,
    (C8_fidelity_collapse 2 [0, 0] (1 / 2) ⟨flipOracle, 0⟩).2.2.2
      (by norm_num [flipOracle]) (by norm_num [flipOracle])⟩

/-- **C4.** Whenever fewer than 30 diagnostic rounds sift successfully,
`run_diagnostics` returns exactly the fixed fail-safe statistics
`{qber_mean = 0.5, qber_upper_bound = 1.0, leakage_upper_bound = 1.0}` (the
model is a total function, so this is a defined result, not an
exception). -/
theorem C4_run_diagnostics_failsafe (c : TEALController) (nt : ℕ)
    (loss leak : ℝ) (g amb : PyRNG)
    (h : (diagSifted nt loss g amb).1.length < 30) :
    (c.run_diagnostics nt loss leak g amb).1 = failsafeStats
    ∧ failsafeStats.qber_mean = 0.5
    ∧ failsafeStats.qber_upper_bound = 1
    ∧ failsafeStats.leakage_upper_bound = 1 := by
  refine ⟨?_, rfl, rfl, rfl⟩
  simp only [TEALController.run_diagnostics]
  rw [if_pos h]

/-- Witness for C4: zero diagnostic rounds sift an empty sample. -/
theorem C4_witness :
    (diagSifted 0 0 constRNG constRNG).1.length < 30
    ∧ (TEALController.default.run_diagnostics 0 0 0 constRNG constRNG).1
        = failsafeStats := by
  have h : (diagSifted 0 0 constRNG constRNG).1.length < 30 := by
    show (diagSiftLoop 0 [] [] [] [] constRNG constRNG).1.length < 30
    simp [diagSiftLoop]
  exact ⟨h, (C4_run_diagnostics_failsafe TEALController.default 0 0 0
    constRNG constRNG h).1⟩

/-! ## The equal-length sifting invariant (C9) -/

/-- Within each sifted pair, Alice's and Bob's sequences have equal
length. -/
def SiftedData.balanced (sd : SiftedData) : Prop :=
  sd.hq_alice.length = sd.hq_bob.length
    ∧ sd.rc_alice.length = sd.rc_bob.length

theorem siftUpdate_balanced (sd : SiftedData) (aβ bβ : ℕ) (ann : Announce)
    (ea bk : ℕ) (h : sd.balanced) :
    (siftUpdate sd aβ bβ ann ea bk).balanced := by
  obtain ⟨h1, h2⟩ := h
  unfold siftUpdate SiftedData.balanced
  split_ifs <;> simp_all

theorem signalStep_balanced (m : Mode) (noise loss : ℝ) (ea bk aβ bβ : ℕ)
    (sd : SiftedData) (g amb : PyRNG) (h : sd.balanced) :
    (signalStep m noise loss ea bk aβ bβ sd g amb).1.balanced :=
  siftUpdate_balanced sd _ _ _ _ _ h

theorem signalLoop_balanced (m : Mode) (noise loss : ℝ) :
    ∀ (eas bks aβs bβs : List ℕ) (sd : SiftedData) (g amb : PyRNG),
      sd.balanced →
      (signalLoop m noise loss eas bks aβs bβs sd g amb).1.balanced := by
  intro eas
  induction eas with
  | nil => intro bks aβs bβs sd g amb h; exact h
  | cons ea eas ih =>
    intro bks aβs bβs sd g amb h
    cases bks with
    | nil => exact h
    | cons bk bks =>
      cases aβs with
      | nil => exact h
      | cons aβ aβs =>
        cases bβs with
        | nil => exact h
        | cons bβ bβs =>
          exact ih bks aβs bβs _ _ _
            (signalStep_balanced m noise loss ea bk aβ bβ sd g amb h)

theorem blockStep_balanced (m : Mode) (bs : ℕ) (loss noise : ℝ)
    (adv : SourceLeakageAdversary)
    (lock : Option (List (CompiledGate ℂ)
      × Matrix (Fin (2 ^ bs)) (Fin (2 ^ bs)) ℂ))
    (st : SiftedData × ℝ × PyRNG × PyRNG) (h : st.1.balanced) :
    (blockStep m bs loss noise adv lock st).1.balanced :=
  signalLoop_balanced m noise loss _ _ _ _ st.1 _ _ h

theorem blocksLoop_balanced (m : Mode) (bs : ℕ) (loss noise : ℝ)
    (adv : SourceLeakageAdversary)
    (lock : Option (List (CompiledGate ℂ)
      × Matrix (Fin (2 ^ bs)) (Fin (2 ^ bs)) ℂ)) :
    ∀ (k : ℕ) (st : SiftedData × ℝ × PyRNG × PyRNG), st.1.balanced →
      (blocksLoop m bs loss noise adv lock k st).1.balanced := by
  intro k
  induction k with
  | zero => intro st h; exact h
  | succ k ih =>
    intro st h
    exact ih _ (blockStep_balanced m bs loss noise adv lock st h)

/-- **C9.** The `SiftedStreamSet` equal-length invariant: every sifting
append is paired (one element to Alice's and one to Bob's stream of the
same pair, or none at all), so the invariant is preserved by every signal,
every block, and holds for the streams of every reachable state of the
orchestrator loop started from the empty streams — in particular for the
run's final sifted streams. -/
theorem C9_sifted_streams_balanced :
    (∀ (sd : SiftedData) (aβ bβ : ℕ) (ann : Announce) (ea bk : ℕ),
      sd.balanced → (siftUpdate sd aβ bβ ann ea bk).balanced)
    ∧ (∀ (m : Mode) (noise loss : ℝ) (eas bks aβs bβs : List ℕ)
        (sd : SiftedData) (g amb : PyRNG), sd.balanced →
        (signalLoop m noise loss eas bks aβs bβs sd g amb).1.balanced)
    ∧ (∀ (m : Mode) (bs : ℕ) (loss noise : ℝ) (adv : SourceLeakageAdversary)
        (lock : Option (List (CompiledGate ℂ)
          × Matrix (Fin (2 ^ bs)) (Fin (2 ^ bs)) ℂ))
        (k : ℕ) (tl : ℝ) (g amb : PyRNG),
        (blocksLoop m bs loss noise adv lock k
          (⟨[], [], [], []⟩, tl, g, amb)).1.balanced)
    ∧ (∀ (seedPy : ℤ → RandomOracle) (seedNp : ℤ → NpOracle)
        (nq bs : ℕ) (loss noise : ℝ) (adv : SourceLeakageAdversary)
        (c : TEALController) (seed : ℤ) (amb : PyRNG),
        (run_aether_v3_protocol seedPy seedNp nq bs loss noise adv c seed
          amb).2.1.balanced) := by
  refine ⟨siftUpdate_balanced, signalLoop_balanced, ?_, ?_⟩
  · intro m bs loss noise adv lock k tl g amb
    exact blocksLoop_balanced m bs loss noise adv lock k _ ⟨rfl, rfl⟩
  · intro seedPy seedNp nq bs loss noise adv c seed amb
    exact blocksLoop_balanced _ _ _ _ _ _ _ _ ⟨rfl, rfl⟩

/-- Witness for C9: one concrete paired append preserves balance. -/
theorem C9_witness :
    (SiftedData.mk [] [] [] []).balanced
    ∧ (siftUpdate ⟨[], [], [], []⟩ 0 0 Announce.psi_plus 1 0).balanced :=
  ⟨⟨rfl, rfl⟩,
    C9_sifted_streams_balanced.1 ⟨[], [], [], []⟩ 0 0 Announce.psi_plus 1 0
      ⟨rfl, rfl⟩⟩

/-! ## The ambient generator is never consumed (C2)

Every `apply_lossy_channel` call in the run passes the run's generator, so
the ambient module-level generator `amb` passes through every layer
untouched and no output depends on it. -/

theorem signalStep_amb (m : Mode) (noise loss : ℝ) (ea bk aβ bβ : ℕ)
    (sd : SiftedData) (g amb : PyRNG) :
    (signalStep m noise loss ea bk aβ bβ sd g amb).2.2 = amb := rfl

theorem signalStep_indep (m : Mode) (noise loss : ℝ) (ea bk aβ bβ : ℕ)
    (sd : SiftedData) (g amb amb' : PyRNG) :
    (signalStep m noise loss ea bk aβ bβ sd g amb).1
        = (signalStep m noise loss ea bk aβ bβ sd g amb').1
      ∧ (signalStep m noise loss ea bk aβ bβ sd g amb).2.1
        = (signalStep m noise loss ea bk aβ bβ sd g amb').2.1 := ⟨rfl, rfl⟩

theorem diagRound_amb (loss : ℝ) (ab aβ bb bβ : ℕ) (g amb : PyRNG) :
    (diagRound loss ab aβ bb bβ g amb).2.2 = amb := rfl

theorem diagRound_indep (loss : ℝ) (ab aβ bb bβ : ℕ) (g amb amb' : PyRNG) :
    (diagRound loss ab aβ bb bβ g amb).1 = (diagRound loss ab aβ bb bβ g amb').1
      ∧ (diagRound loss ab aβ bb bβ g amb).2.1
        = (diagRound loss ab aβ bb bβ g amb').2.1 := ⟨rfl, rfl⟩

theorem diagAppend_parts (ann : Announce) (ab bb : ℕ)
    (rest rest' : List ℕ × List ℕ × PyRNG × PyRNG)
    (h1 : rest.1 = rest'.1) (h2 : rest.2.1 = rest'.2.1)
    (h3 : rest.2.2.1 = rest'.2.2.1) :
    (diagAppend ann ab bb rest).1 = (diagAppend ann ab bb rest').1
    ∧ (diagAppend ann ab bb rest).2.1 = (diagAppend ann ab bb rest').2.1
    ∧ (diagAppend ann ab bb rest).2.2.1 = (diagAppend ann ab bb rest').2.2.1 := by
  cases ann <;> unfold diagAppend <;>
    exact ⟨by rw [h1], by rw [h2], by rw [h3]⟩

theorem diagAppend_amb (ann : Announce) (ab bb : ℕ)
    (rest : List ℕ × List ℕ × PyRNG × PyRNG) :
    (diagAppend ann ab bb rest).2.2.2 = rest.2.2.2 := by
  cases ann <;> rfl

theorem diagSiftLoop_amb (loss : ℝ) :
    ∀ (aks aβs bks bβs : List ℕ) (g amb amb' : PyRNG),
      (diagSiftLoop loss aks aβs bks bβs g amb).1
        = (diagSiftLoop loss aks aβs bks bβs g amb').1
      ∧ (diagSiftLoop loss aks aβs bks bβs g amb).2.1
        = (diagSiftLoop loss aks aβs bks bβs g amb').2.1
      ∧ (diagSiftLoop loss aks aβs bks bβs g amb).2.2.1
        = (diagSiftLoop loss aks aβs bks bβs g amb').2.2.1
      ∧ (diagSiftLoop loss aks aβs bks bβs g amb).2.2.2 = amb := by
  intro aks
  induction aks with
  | nil => intro aβs bks bβs g amb amb'; exact ⟨rfl, rfl, rfl, rfl⟩
  | cons ab aks ih =>
    intro aβs bks bβs g amb amb'
    cases aβs with
    | nil => exact ⟨rfl, rfl, rfl, rfl⟩
    | cons aβ aβs =>
      cases bks with
      | nil => exact ⟨rfl, rfl, rfl, rfl⟩
      | cons bb bks =>
        cases bβs with
        | nil => exact ⟨rfl, rfl, rfl, rfl⟩
        | cons bβ bβs =>
          have e : ∀ amb₀ : PyRNG,
              diagSiftLoop loss (ab :: aks) (aβ :: aβs) (bb :: bks)
                (bβ :: bβs) g amb₀
              = diagAppend (diagRound loss ab aβ bb bβ g amb₀).1 ab bb
                  (diagSiftLoop loss aks aβs bks bβs
                    (diagRound loss ab aβ bb bβ g amb₀).2.1
                    (diagRound loss ab aβ bb bβ g amb₀).2.2) := fun _ => rfl
          obtain ⟨hr1, hr2⟩ := diagRound_indep loss ab aβ bb bβ g amb amb'
          rw [e amb, e amb', hr1, hr2,
              diagRound_amb loss ab aβ bb bβ g amb,
              diagRound_amb loss ab aβ bb bβ g amb']
          obtain ⟨ih1, ih2, ih3, ih4⟩ := ih aβs bks bβs
            (diagRound loss ab aβ bb bβ g amb').2.1 amb amb'
          exact ⟨(diagAppend_parts _ _ _ _ _ ih1 ih2 ih3).1,
            (diagAppend_parts _ _ _ _ _ ih1 ih2 ih3).2.1,
            (diagAppend_parts _ _ _ _ _ ih1 ih2 ih3).2.2,
            (diagAppend_amb _ _ _ _).trans ih4⟩

theorem diagSifted_amb (nt : ℕ) (loss : ℝ) (g amb amb' : PyRNG) :
    (diagSifted nt loss g amb).1 = (diagSifted nt loss g amb').1
    ∧ (diagSifted nt loss g amb).2.1 = (diagSifted nt loss g amb').2.1
    ∧ (diagSifted nt loss g amb).2.2.1 = (diagSifted nt loss g amb').2.2.1
    ∧ (diagSifted nt loss g amb).2.2.2 = amb :=
  diagSiftLoop_amb loss _ _ _ _ _ amb amb'

theorem run_diagnostics_amb (c : TEALController) (nt : ℕ) (loss leak : ℝ)
    (g amb amb' : PyRNG) :
    (c.run_diagnostics nt loss leak g amb).1
      = (c.run_diagnostics nt loss leak g amb').1
    ∧ (c.run_diagnostics nt loss leak g amb).2.1
      = (c.run_diagnostics nt loss leak g amb').2.1
    ∧ (c.run_diagnostics nt loss leak g amb).2.2 = amb := by
  obtain ⟨h1, h2, h3, h4⟩ := diagSifted_amb nt loss g amb amb'
  have h4' := (diagSifted_amb nt loss g amb' amb).2.2.2
  by_cases hc : (diagSifted nt loss g amb).1.length < 30
  · have hc' : (diagSifted nt loss g amb').1.length < 30 := by rw [← h1]; exact hc
    refine ⟨?_, ?_, ?_⟩
    · simp only [TEALController.run_diagnostics]
      rw [if_pos hc, if_pos hc']
    · simp only [TEALController.run_diagnostics]
      rw [if_pos hc, if_pos hc']
      exact h3
    · simp only [TEALController.run_diagnostics]
      rw [if_pos hc]
      exact h4
  · have hc' : ¬ (diagSifted nt loss g amb').1.length < 30 := by rw [← h1]; exact hc
    refine ⟨?_, ?_, ?_⟩
    · simp only [TEALController.run_diagnostics]
      rw [if_neg hc, if_neg hc']
      simp only [h1, h2, h3]
    · simp only [TEALController.run_diagnostics]
      rw [if_neg hc, if_neg hc']
      simp only [h3]
    · simp only [TEALController.run_diagnostics]
      rw [if_neg hc]
      exact h4

theorem signalLoop_amb (m : Mode) (noise loss : ℝ) :
    ∀ (eas bks aβs bβs : List ℕ) (sd : SiftedData) (g amb amb' : PyRNG),
      (signalLoop m noise loss eas bks aβs bβs sd g amb).1
        = (signalLoop m noise loss eas bks aβs bβs sd g amb').1
      ∧ (signalLoop m noise loss eas bks aβs bβs sd g amb).2.1
        = (signalLoop m noise loss eas bks aβs bβs sd g amb').2.1
      ∧ (signalLoop m noise loss eas bks aβs bβs sd g amb).2.2 = amb := by
  intro eas
  induction eas with
  | nil => intro bks aβs bβs sd g amb amb'; exact ⟨rfl, rfl, rfl⟩
  | cons ea eas ih =>
    intro bks aβs bβs sd g amb amb'
    cases bks with
    | nil => exact ⟨rfl, rfl, rfl⟩
    | cons bk bks =>
      cases aβs with
      | nil => exact ⟨rfl, rfl, rfl⟩
      | cons aβ aβs =>
        cases bβs with
        | nil => exact ⟨rfl, rfl, rfl⟩
        | cons bβ bβs =>
          have e : ∀ amb₀ : PyRNG,
              signalLoop m noise loss (ea :: eas) (bk :: bks) (aβ :: aβs)
                (bβ :: bβs) sd g amb₀
              = signalLoop m noise loss eas bks aβs bβs
                  (signalStep m noise loss ea bk aβ bβ sd g amb₀).1
                  (signalStep m noise loss ea bk aβ bβ sd g amb₀).2.1
                  (signalStep m noise loss ea bk aβ bβ sd g amb₀).2.2 :=
            fun _ => rfl
          obtain ⟨hs1, hs2⟩ := signalStep_indep m noise loss ea bk aβ bβ sd g amb amb'
          rw [e amb, e amb', hs1, hs2,
              signalStep_amb m noise loss ea bk aβ bβ sd g amb,
              signalStep_amb m noise loss ea bk aβ bβ sd g amb']
          exact ih bks aβs bβs _ _ amb amb'

theorem blockStep_amb (m : Mode) (bs : ℕ) (loss noise : ℝ)
    (adv : SourceLeakageAdversary)
    (lock : Option (List (CompiledGate ℂ)
      × Matrix (Fin (2 ^ bs)) (Fin (2 ^ bs)) ℂ))
    (sd : SiftedData) (tl : ℝ) (g amb amb' : PyRNG) :
    (blockStep m bs loss noise adv lock (sd, tl, g, amb)).1
      = (blockStep m bs loss noise adv lock (sd, tl, g, amb')).1
    ∧ (blockStep m bs loss noise adv lock (sd, tl, g, amb)).2.1
      = (blockStep m bs loss noise adv lock (sd, tl, g, amb')).2.1
    ∧ (blockStep m bs loss noise adv lock (sd, tl, g, amb)).2.2.1
      = (blockStep m bs loss noise adv lock (sd, tl, g, amb')).2.2.1
    ∧ (blockStep m bs loss noise adv lock (sd, tl, g, amb)).2.2.2 = amb := by
  refine ⟨?_, rfl, ?_, ?_⟩
  · exact (signalLoop_amb m noise loss _ _ _ _ _ _ amb amb').1
  · exact (signalLoop_amb m noise loss _ _ _ _ _ _ amb amb').2.1
  · exact (signalLoop_amb m noise loss _ _ _ _ _ _ amb amb').2.2

theorem blocksLoop_amb (m : Mode) (bs : ℕ) (loss noise : ℝ)
    (adv : SourceLeakageAdversary)
    (lock : Option (List (CompiledGate ℂ)
      × Matrix (Fin (2 ^ bs)) (Fin (2 ^ bs)) ℂ)) :
    ∀ (k : ℕ) (sd : SiftedData) (tl : ℝ) (g amb amb' : PyRNG),
      (blocksLoop m bs loss noise adv lock k (sd, tl, g, amb)).1
        = (blocksLoop m bs loss noise adv lock k (sd, tl, g, amb')).1
      ∧ (blocksLoop m bs loss noise adv lock k (sd, tl, g, amb)).2.1
        = (blocksLoop m bs loss noise adv lock k (sd, tl, g, amb')).2.1
      ∧ (blocksLoop m bs loss noise adv lock k (sd, tl, g, amb)).2.2.1
        = (blocksLoop m bs loss noise adv lock k (sd, tl, g, amb')).2.2.1
      ∧ (blocksLoop m bs loss noise adv lock k (sd, tl, g, amb)).2.2.2
        = amb := by
  intro k
  induction k with
  | zero => intro sd tl g amb amb'; exact ⟨rfl, rfl, rfl, rfl⟩
  | succ k ih =>
    intro sd tl g amb amb'
    obtain ⟨h1, h2, h3, h4⟩ := blockStep_amb m bs loss noise adv lock sd tl g amb amb'
    have h4' := (blockStep_amb m bs loss noise adv lock sd tl g amb' amb).2.2.2
    have e : blockStep m bs loss noise adv lock (sd, tl, g, amb)
        = ((blockStep m bs loss noise adv lock (sd, tl, g, amb')).1,
           (blockStep m bs loss noise adv lock (sd, tl, g, amb')).2.1,
           (blockStep m bs loss noise adv lock (sd, tl, g, amb')).2.2.1,
           amb) := by
      refine Prod.ext h1 (Prod.ext h2 (Prod.ext h3 h4))
    have e' : blockStep m bs loss noise adv lock (sd, tl, g, amb')
        = ((blockStep m bs loss noise adv lock (sd, tl, g, amb')).1,
           (blockStep m bs loss noise adv lock (sd, tl, g, amb')).2.1,
           (blockStep m bs loss noise adv lock (sd, tl, g, amb')).2.2.1,
           amb') := by
      refine Prod.ext rfl (Prod.ext rfl (Prod.ext rfl h4'))
    have estep : ∀ st, blocksLoop m bs loss noise adv lock (k + 1) st
        = blocksLoop m bs loss noise adv lock k
            (blockStep m bs loss noise adv lock st) := fun _ => rfl
    rw [estep, estep, e, e']
    exact ih _ _ _ amb amb'

theorem run_tail_amb (m : Mode) (bs : ℕ) (loss noise : ℝ)
    (adv : SourceLeakageAdversary)
    (lock : Option (List (CompiledGate ℂ)
      × Matrix (Fin (2 ^ bs)) (Fin (2 ^ bs)) ℂ))
    (k : ℕ) (g : PyRNG) (nq : ℕ) (amb amb' : PyRNG) :
    run_aether_v3_analysis
        (blocksLoop m bs loss noise adv lock k (⟨[], [], [], []⟩, 0, g, amb)).1
        nq (m = Mode.Lock)
        (if 0 < k then
          (blocksLoop m bs loss noise adv lock k
            (⟨[], [], [], []⟩, 0, g, amb)).2.1 / (k : ℝ)
         else 0) m
      = run_aether_v3_analysis
        (blocksLoop m bs loss noise adv lock k (⟨[], [], [], []⟩, 0, g, amb')).1
        nq (m = Mode.Lock)
        (if 0 < k then
          (blocksLoop m bs loss noise adv lock k
            (⟨[], [], [], []⟩, 0, g, amb')).2.1 / (k : ℝ)
         else 0) m := by
  obtain ⟨h1, h2, _, _⟩ :=
    blocksLoop_amb m bs loss noise adv lock k ⟨[], [], [], []⟩ 0 g amb amb'
  rw [h1, h2]

/-- **C2.** Every run of `run_aether_v3_protocol` is a pure function of its
configuration and seed: with the seed-to-oracle maps fixed, two executions
with identical parameters and the same seed are literally the same value
(determinism is definitional in the model), and — the substantive content —
no ambient shared generator is consumed: the report, the sifted streams and
the final run generator are independent of the ambient module-level
generator `apply_lossy_channel` would fall back to, and that ambient
generator is returned in its initial state. -/
theorem C2_run_determinism_no_ambient
    (seedPy : ℤ → RandomOracle) (seedNp : ℤ → NpOracle)
    (nq bs : ℕ) (loss noise : ℝ) (adv : SourceLeakageAdversary)
    (c : TEALController) (seed : ℤ) (amb amb' : PyRNG) :
    (run_aether_v3_protocol seedPy seedNp nq bs loss noise adv c seed amb).1
      = (run_aether_v3_protocol seedPy seedNp nq bs loss noise adv c seed amb').1
    ∧ (run_aether_v3_protocol seedPy seedNp nq bs loss noise adv c seed amb).2.1
      = (run_aether_v3_protocol seedPy seedNp nq bs loss noise adv c seed amb').2.1
    ∧ (run_aether_v3_protocol seedPy seedNp nq bs loss noise adv c seed amb).2.2.1
      = (run_aether_v3_protocol seedPy seedNp nq bs loss noise adv c seed amb').2.2.1
    ∧ (run_aether_v3_protocol seedPy seedNp nq bs loss noise adv c seed amb).2.2.2
      = amb := by
  obtain ⟨hd1, hd2, hd3⟩ :=
    run_diagnostics_amb c 2000 loss adv.strength ⟨seedPy seed, 0⟩ amb amb'
  have hd3' :=
    (run_diagnostics_amb c 2000 loss adv.strength ⟨seedPy seed, 0⟩ amb' amb).2.2
  simp only [run_aether_v3_protocol]
  simp only [hd1, hd2, hd3, hd3']
  exact ⟨run_tail_amb _ _ _ _ _ _ _ _ _ amb amb',
    (blocksLoop_amb _ _ _ _ _ _ _ _ _ _ amb amb').1,
    (blocksLoop_amb _ _ _ _ _ _ _ _ _ _ amb amb').2.2.1,
    (blocksLoop_amb _ _ _ _ _ _ _ _ _ _ amb amb').2.2.2⟩

end AetherQKD
